import Mathlib

/-!
Verification development for the `gtrace` code generator (`Writer`) of this
repository.  The Go source (src/unnamed/part_000) is shallowly embedded below:

* string helpers (`exported`, `unexported`, `firstChar`, `ident`, `tempName`,
  `rsplit`) become pure Lean functions on `String`;
* the `Writer` receiver becomes a state-and-output monad `WM`: the mutable
  fields (`atEOL`, `depth`, the scope list, the cached std-lib map) live in
  `WCore`, a `panic` becomes the `WRes.panicked` constructor, and every byte
  handed to the buffered writer `w.bw` is recorded, in order, in the output
  chunk list (the second component of a run).  Nothing in the source ever
  reads the buffered writer back, so recording the chunks and folding the
  `bufio` semantics over them afterwards (`bwriteAll` below) is observationally
  equivalent to Go's interleaved buffering;
* `types.Type` is embedded as `GoType`, exposing exactly the capabilities the
  generator consumes: identity (package path/name), struct-ness with an
  exported-field list, and pointer unwrapping;
* Unicode character classification (`unicode.IsLetter` etc.) is modelled on
  the ASCII fragment (`Char.isAlpha` ...), which covers every identifier the
  generator is exercised with here.

Character-level conventions: Go string literals containing braces are written
with the escapes \x7b and \x7d.
-/

namespace Gtrace

/-- Go reserved words, as recognized by `token.IsKeyword` (used by
`Writer.declare` to skip candidate identifiers). -/
def goKeywords : List String :=
  ["break", "case", "chan", "const", "continue", "default", "defer", "else",
   "fallthrough", "for", "func", "go", "goto", "if", "import", "interface",
   "map", "package", "range", "return", "select", "struct", "switch", "type",
   "var"]

/-- `token.IsKeyword`. -/
def isKeyword (s : String) : Bool := goKeywords.contains s

/-- The predeclared (universe-scope) identifiers of Go, i.e. the names for
which `types.Universe.Lookup` is non-nil (source: `isPredeclared`). -/
def predeclaredNames : List String :=
  ["any", "bool", "byte", "comparable", "complex64", "complex128", "error",
   "float32", "float64", "int", "int8", "int16", "int32", "int64", "rune",
   "string", "uint", "uint8", "uint16", "uint32", "uint64", "uintptr",
   "true", "false", "iota", "nil",
   "append", "cap", "clear", "close", "complex", "copy", "delete", "imag",
   "len", "make", "max", "min", "new", "panic", "print", "println", "real",
   "recover"]

/-- `isPredeclared(name)`: `types.Universe.Lookup(name) != nil`. -/
def isPredeclared (s : String) : Bool := predeclaredNames.contains s

/-- `exported(s)`: upper-case the first rune.  Go panics on a string that does
not start with a valid rune; the model is restricted to nonempty identifier
strings and returns `""` on `""`. -/
def exported (s : String) : String :=
  match s.data with
  | [] => ""
  | c :: cs => String.mk (c.toUpper :: cs)

/-- `unexported(s)`: lower-case the first rune (same emptiness caveat as
`exported`). -/
def unexported (s : String) : String :=
  match s.data with
  | [] => ""
  | c :: cs => String.mk (c.toLower :: cs)

/-- `firstChar(s)`: the first rune of `s` as a string. -/
def firstChar (s : String) : String :=
  match s.data with
  | [] => ""
  | c :: _ => String.mk [c]

/-- The character filter of `ident`: keep underscores, letters and digits. -/
def identKeep (c : Char) : Bool := c == '_' || c.isAlpha || c.isDigit

/-- `token.IsIdentifier`: nonempty, made of letters/digits/underscores, first
character not a digit, and not a keyword. -/
def isIdentifier (s : String) : Bool :=
  !s.isEmpty && s.data.all identKeep &&
    (match s.data with | [] => false | c :: _ => !c.isDigit) &&
    !isKeyword s

/-- `ident(s)`: drop leading digits, filter out non letter/number/underscore
characters, and prepend an underscore if the outcome is not an identifier. -/
def ident (s : String) : String :=
  let s1 := String.mk ((s.data.dropWhile (·.isDigit)).filter identKeep)
  if isIdentifier s1 then s1 else "_" ++ s1

/-- `tempName(names...)`: first component unexported, the rest exported,
concatenated. -/
def tempName (names : List String) : String :=
  match names with
  | [] => ""
  | n :: rest => unexported n ++ String.join (rest.map exported)

/-- Split a character list at the first occurrence of `c` (`none` when `c`
does not occur). -/
def splitFirst (c : Char) : List Char → Option (List Char × List Char)
  | [] => none
  | x :: xs =>
      if x = c then some ([], xs)
      else
        match splitFirst c xs with
        | some r => some (x :: r.1, r.2)
        | none => none

/-- Modelled from the spec: the helper `rsplit` is code of this repository
that is not under `src/`; from its single use in `typeBasename` it splits a
string at the last occurrence of the given character, returning the part
before and the part after (the whole string and `""` when the character does
not occur). -/
def rsplit (s : String) (c : Char) : String × String :=
  match splitFirst c s.data.reverse with
  | none => (s, "")
  | some r => (String.mk r.2.reverse, String.mk r.1.reverse)

/-- `fmt`'s `%q` verb as used in the panic messages (escaping is irrelevant
for the identifiers involved). -/
def goQuote (s : String) : String := "\"" ++ s ++ "\""

/-! ### The type descriptor (`types.Type` capability view)

`GoField` is `(name, exported?, type)` of a struct field. `GoType.named`
models `*types.Named`: a `fields` value of `some fs` means the underlying
type is a struct with fields `fs` (`unwrapStruct` succeeds); `none` means a
non-struct underlying type.  A `named` with empty `pkgPath` models a
universe-scope named type (`obj.Pkg() == nil`, e.g. `error`). -/

inductive GoType : Type where
  | basic (name : String)
  | pointer (elem : GoType)
  | named (pkgPath pkgName name : String) (fields : Option (List (String × Bool × GoType)))

/-- Field name accessor. -/
def fieldName (f : String × Bool × GoType) : String := f.1

/-- Field exported flag. -/
def fieldExported (f : String × Bool × GoType) : Bool := f.2.1

/-- Field type accessor. -/
def fieldType (f : String × Bool × GoType) : GoType := f.2.2

/-- `unwrapStruct(t)`: the field list when `t` is a named type whose
underlying type is a struct (pointers are deliberately not unwrapped, exactly
as in the source). -/
def structFields : GoType → Option (List (String × Bool × GoType))
  | .named _ _ _ fs => fs
  | _ => none

/-- `types.TypeString` with the qualifier of `Writer.typeString`: same
package or universe scope is unqualified, otherwise qualified by the package
name. -/
def typeStringQ (selfPath : String) : GoType → String
  | .basic n => n
  | .pointer e => "*" ++ typeStringQ selfPath e
  | .named pp pn n _ => if pp == selfPath || pp == "" then n else pn ++ "." ++ n

/-- `types.Type.String()`: the fully path-qualified rendering used by
`typeBasename`. -/
def typeStringFull : GoType → String
  | .basic n => n
  | .pointer e => "*" ++ typeStringFull e
  | .named pp _ n _ => if pp == "" then n else pp ++ "." ++ n

/-- `typeBasename(t)`: the part after the last dot of `t.String()`, or the
whole string when there is no dot. -/
def typeBasename (t : GoType) : String :=
  let p := rsplit (typeStringFull t) '.'
  if p.2 == "" then p.1 else p.2

/-! ### The model (`Package`/`Trace`/`Hook`/`Func`/`Param`)

Modelled from the spec (§3 DATA MODEL): the model types are code of this
repository that is not under `src/`.  A `Func` has ordered params and a
result slot holding 0 or 1 `Result`; a `Result` is the closed two-variant
union of a continuation `Func` and a nested-`Trace` reference (the generator
reads only the referenced trace's name, so the reference is embedded as the
name). -/

structure Param where
  name : String
  type : GoType

mutual
inductive Func : Type where
  | mk (params : List Param) (result : Option HookResult)
inductive HookResult : Type where
  | func (f : Func)
  | traceRef (name : String)
end

/-- Parameter list of a `Func`. -/
def Func.params : Func → List Param
  | .mk ps _ => ps

/-- Result slot of a `Func`. -/
def Func.result : Func → Option HookResult
  | .mk _ r => r

/-- Modelled from the spec: `Func.HasResult()` — the result slot is occupied. -/
def Func.hasResult (f : Func) : Bool := f.result.isSome

/-- Modelled from the spec: `Func.isFuncResult()` — the result is a
continuation `Func`. -/
def Func.isFuncResult (f : Func) : Bool :=
  match f.result with
  | some (.func _) => true
  | _ => false

structure Hook where
  name : String
  func : Func

structure Trace where
  name : String
  nested : Bool
  hooks : List Hook

/-- Modelled from the spec: a `Package` bundles the target package identity
(`p.Package`: import path, name and the set of names visible at module
scope, for `w.pkg.Scope().Lookup`), the preserved build constraints and the
ordered traces. -/
structure Package where
  pkgPath : String
  pkgName : String
  globals : List String
  buildConstraints : List String
  traces : List Trace

/-! ### The writer monad -/

/-- One declaration in a lexical scope: the chosen name and the source
location (`runtime.Caller`) of the declaring call, as stored by `scope.set`. -/
structure GoDecl where
  name : String
  site : String
  deriving DecidableEq, Repr

/-- `scope`: the set of occupied names of one lexical block (Go uses a
`map[string]decl`; only membership and lookup are performed on it, so an
insertion-ordered association list is a faithful embedding). -/
structure GScope where
  vars : List GoDecl
  deriving DecidableEq, Repr

/-- The mutable fields of `Writer` (plus the environment): `atEOL`, `depth`,
the scope stack (head = innermost, i.e. the back of Go's `list.List`), the
target package identity (`w.pkg`), the lazily built std-lib table `w.std`,
and the `ReadDir(GOROOT/src)` outcome (`none` models an I/O error; entries
are `(name, isDir)`). -/
structure WCore where
  atEOL : Bool
  depth : Nat
  scopes : List GScope
  pkgPath : String
  pkgName : String
  globals : List String
  std : Option (List String)
  goroot : Option (List (String × Bool))
  deriving DecidableEq, Repr

/-- Outcome of a writer computation: normal return or a Go `panic` carrying
its message and the state at the moment of panicking. -/
inductive WRes (α : Type) : Type where
  | ok : α → WCore → WRes α
  | panicked : String → WCore → WRes α
  deriving DecidableEq, Repr

/-- The writer monad: state plus the ordered list of byte chunks handed to
the buffered writer (each `WriteString`/`WriteByte` call is one chunk). -/
def WM (α : Type) : Type := WCore → WRes α × List String

/-- Monad unit for `WM`. -/
def WM.pure (a : α) : WM α := fun c => (.ok a c, [])

/-- Monad bind for `WM`: a panic short-circuits (no deferred cleanup exists
in the source), output chunks concatenate. -/
def WM.bind (m : WM α) (k : α → WM β) : WM β := fun c =>
  match m c with
  | (.ok a c', o) =>
      match k a c' with
      | (r, o') => (r, o ++ o')
  | (.panicked msg c', o) => (.panicked msg c', o)

instance instMonadWM : Monad WM where
  pure := WM.pure
  bind := WM.bind

/-- Do-notation bind is definitionally `WM.bind`. -/
theorem bind_eq {α β : Type} (m : WM α) (k : α → WM β) : m >>= k = WM.bind m k := rfl

/-- Do-notation pure is definitionally `WM.pure`. -/
theorem pure_eq {α : Type} (a : α) : (Pure.pure a : WM α) = WM.pure a := rfl

/-- `panic(msg)`. -/
def goPanic {α : Type} (msg : String) : WM α := fun c => (.panicked msg c, [])

/-- Read the writer state. -/
def getCore : WM WCore := fun c => (.ok c c, [])

/-- Replace the writer state. -/
def modifyCore (f : WCore → WCore) : WM Unit := fun c => (.ok () (f c), [])

/-- Hand one chunk to the buffered writer (`w.bw.WriteString` /
`w.bw.WriteByte`). -/
def emit (s : String) : WM Unit := fun c => (.ok () c, [s])

/-- Emit `n` tab bytes (the indentation loop of `Writer.code`). -/
def emitTabs : Nat → WM Unit
  | 0 => WM.pure ()
  | n + 1 => WM.bind (emit "\t") (fun _ => emitTabs n)

/-- Emit every string of `args` in order. -/
def emitAll : List String → WM Unit
  | [] => WM.pure ()
  | s :: rest => WM.bind (emit s) (fun _ => emitAll rest)

/-- `Writer.code(args...)`: indent if at the start of a line, then append the
arguments to the current line. -/
def code (args : List String) : WM Unit := do
  let c ← getCore
  if c.atEOL then do
    emitTabs c.depth
    modifyCore (fun c => { c with atEOL := false })
  emitAll args

/-- `Writer.line(args...)`: `code` the arguments, terminate the line. -/
def line (args : List String) : WM Unit := do
  code args
  emit "\n"
  modifyCore (fun c => { c with atEOL := true })

/-- A bare `w.bw.WriteByte('\n')` without touching `atEOL` (used by
`Writer.options`). -/
def rawNL : WM Unit := emit "\n"

/-- `w.bw.WriteByte('\n'); w.atEOL = true` (used inside
`Writer.composeHookCall`). -/
def nlEOL : WM Unit := do
  emit "\n"
  modifyCore (fun c => { c with atEOL := true })

/-! ### Scope allocator -/

/-- `scope.set(v)` on the current (innermost) scope: `false` if taken,
otherwise register `v` together with the caller's source location and return
`true`.  An empty scope stack cannot occur on the paths the generator takes
(Go would nil-deref); the model panics there. -/
def scopeSet (site v : String) : WM Bool := fun c =>
  match c.scopes with
  | [] => (.panicked "gtrace-model: no scope" c, [])
  | s :: rest =>
      if s.vars.any (fun d => d.name == v) then (.ok false c, [])
      else (.ok true { c with scopes := ⟨s.vars ++ [⟨v, site⟩]⟩ :: rest }, [])

/-- `scope.where(v)`: the recorded location of `v`'s declaration (the zero
value `""` when absent, as for a Go map miss). -/
def scopeWhere (v : String) : WM String := fun c =>
  match c.scopes with
  | [] => (.panicked "gtrace-model: no scope" c, [])
  | s :: _ => (.ok (((s.vars.find? (fun d => d.name == v)).map GoDecl.site).getD "") c, [])

/-- `Writer.mustDeclare(name)`: require the exact name; panic with the
colliding name and the prior declaration's location if taken. -/
def mustDeclare (site name : String) : WM Unit :=
  WM.bind (scopeSet site name) (fun fresh =>
    if fresh then WM.pure ()
    else WM.bind (scopeWhere name) (fun w =>
      goPanic ("gtrace: can't declare identifier: " ++ goQuote name ++
        ": already defined at " ++ goQuote w)))

/-- `Writer.isGlobalScope()`: exactly one scope on the stack. -/
def coreIsGlobalScope (c : WCore) : Bool := c.scopes.length == 1

/-- Candidate of index `i` in `declare`'s search: the base name itself for
`i = 0`, the base name suffixed with the decimal rendering of `i` otherwise. -/
def candidateName (name : String) (i : Nat) : String :=
  if i == 0 then name else name ++ toString i

/-- Whether `declare`'s loop must skip candidate `v`: host-grammar keyword,
module-scope symbol (only when declaring at the outermost level), or a name
already taken in the current scope. -/
def candBlocked (c : WCore) (v : String) : Bool :=
  isKeyword v ||
    (coreIsGlobalScope c && c.globals.contains v) ||
    (match c.scopes with
     | [] => false
     | s :: _ => s.vars.any (fun d => d.name == v))

/-- The search loop of `Writer.declare`, made total with explicit fuel (the
Go loop terminates because only finitely many candidates are blocked; the
fuel supplied by `declare` always suffices). -/
def declareSearch (c : WCore) (name : String) : Nat → Nat → Option String
  | _, 0 => none
  | i, fuel + 1 =>
      let v := candidateName name i
      if candBlocked c v then declareSearch c name (i + 1) fuel else some v

/-- Fuel that bounds `declare`'s search: one more candidate than there are
potentially blocking names. -/
def declareFuel (c : WCore) : Nat :=
  (match c.scopes with
   | [] => 0
   | s :: _ => s.vars.length) + c.globals.length + goKeywords.length + 1

/-- `Writer.declare(name)`: replace a predeclared base name by its first
character, then search suffixed candidates and register the first free one. -/
def declare (site name : String) : WM String := fun c =>
  let nm := if isPredeclared name then firstChar name else name
  match declareSearch c nm 0 (declareFuel c) with
  | none => (.panicked "gtrace-model: declare fuel exhausted" c, [])
  | some v => (WM.bind (scopeSet site v) (fun _ => WM.pure v)) c

/-- `Writer.capture(vars...)`: mark each name occupied in the current scope;
panic on a collision. -/
def capture (site : String) : List String → WM Unit
  | [] => WM.pure ()
  | v :: rest =>
      WM.bind (scopeSet site v) (fun fresh =>
        if fresh then capture site rest
        else goPanic ("can't capture variable " ++ goQuote v))

/-- Push a fresh scope (`w.scope.PushBack(new(scope))`). -/
def pushScope : WM Unit := modifyCore (fun c => { c with scopes := ⟨[]⟩ :: c.scopes })

/-- Pop the innermost scope (`w.scope.Remove(w.scope.Back())`). -/
def popScope : WM Unit := modifyCore (fun c => { c with scopes := c.scopes.tail })

/-- `Writer.newScope(fn)`.  A panic inside `fn` propagates without popping,
exactly as in Go (there is no deferred removal in the source). -/
def newScope (m : WM α) : WM α := do
  pushScope
  let a ← m
  popScope
  WM.pure a

/-- `Writer.block(fn)`: one indentation level deeper, in a fresh scope. -/
def block (m : WM α) : WM α := do
  modifyCore (fun c => { c with depth := c.depth + 1 })
  let a ← newScope m
  modifyCore (fun c => { c with depth := c.depth - 1 })
  WM.pure a

/-! ### Import resolver -/

/-- `dep`: one collected dependency (module path, display name, referencing
type name). -/
structure Dep where
  pkgPath : String
  pkgName : String
  typName : String
  deriving DecidableEq, Repr

/-- `Writer.typeImports`: pointer-unwrap, then record a named type from a
package other than the target package (a universe-scope named type has no
package and records nothing). -/
def typeImports (selfPath : String) (dst : List Dep) : GoType → List Dep
  | .pointer e => typeImports selfPath dst e
  | .basic _ => dst
  | .named pp pn tn _ =>
      if pp != "" && pp != selfPath then dst ++ [⟨pp, pn, tn⟩] else dst

/-- The struct-field walk of `Writer.funcImports`: for a struct-typed
parameter, also record the types of its exported fields. -/
def fieldImports (selfPath : String) (dst : List Dep) : List (String × Bool × GoType) → List Dep
  | [] => dst
  | f :: fs =>
      let dst := if fieldExported f then typeImports selfPath dst (fieldType f) else dst
      fieldImports selfPath dst fs

/-- The parameter walk of `Writer.funcImports`. -/
def paramImports (selfPath : String) (dst : List Dep) : List Param → List Dep
  | [] => dst
  | p :: ps =>
      let dst := typeImports selfPath dst p.type
      let dst := match structFields p.type with
        | some fs => fieldImports selfPath dst fs
        | none => dst
      paramImports selfPath dst ps

/-- `Writer.funcImports`: parameters (with exported struct fields), then the
continuation result, recursively; a nested-trace result records nothing. -/
def funcImports (selfPath : String) (dst : List Dep) : Func → List Dep
  | .mk ps r =>
      let dst := paramImports selfPath dst ps
      match r with
      | some (.func g) => funcImports selfPath dst g
      | _ => dst

/-- The hook loop of `Writer.traceImports`. -/
def hookImports (selfPath : String) (dst : List Dep) : List Hook → List Dep
  | [] => dst
  | h :: hs => hookImports selfPath (funcImports selfPath dst h.func) hs

/-- `Writer.traceImports`. -/
def traceImports (selfPath : String) (dst : List Dep) (t : Trace) : List Dep :=
  hookImports selfPath dst t.hooks

/-- The dependency-collection loop of `Writer.Write`. -/
def collectDeps (selfPath : String) : List Dep → List Trace → List Dep
  | dst, [] => dst
  | dst, t :: ts => collectDeps selfPath (traceImports selfPath dst t) ts

/-- The deduplication loop at the top of `Writer.importDeps`: a duplicate
path is removed by swapping the element with the last one and truncating, so
`kept` receives the first-seen entry per path while the tail is reshuffled
(the order is irrelevant, everything is sorted next). -/
def dedupGo (seen : List String) (kept : List Dep) (rest : List Dep) : List Dep :=
  match rest with
  | [] => kept
  | d :: ds =>
      if seen.contains d.pkgPath then
        if h : ds = [] then kept
        else dedupGo seen kept (ds.getLast h :: ds.dropLast)
      else dedupGo (seen ++ [d.pkgPath]) (kept ++ [d]) ds
termination_by rest.length
decreasing_by
  · simp [List.length_dropLast]
    cases ds with
    | nil => exact absurd rfl h
    | cons e es => simp
  · simp

/-- The deduplicated dependency list of `Writer.importDeps`. -/
def dedupDeps (deps : List Dep) : List Dep := dedupGo [] [] deps

/-- The first path segment used by `Writer.isStdLib`:
`strings.Split(pkg, "/")[0]`. -/
def firstSeg (pkg : String) : String := String.mk (pkg.data.takeWhile (fun ch => ch != '/'))

/-- Pure membership test against the cached std-lib table (the body of
`Writer.isStdLib` after the table is ensured). -/
def stdOf (m : List String) (pkg : String) : Bool := m.contains (firstSeg pkg)

/-- The directory scan of `Writer.ensureStdLibMapping`: keep the base name of
every directory under `GOROOT/src` except `cmd` and `internal` (files are
skipped). -/
def stdNamesOf : List (String × Bool) → List String
  | [] => []
  | (name, isDir) :: rest =>
      if isDir && name != "cmd" && name != "internal"
      then name :: stdNamesOf rest
      else stdNamesOf rest

/-- `Writer.ensureStdLibMapping`: build the table on first use (panicking
with an I/O failure when `GOROOT/src` cannot be listed), keep it untouched
afterwards. -/
def ensureStdLibMapping : WM Unit := fun c =>
  match c.std with
  | some _ => (.ok () c, [])
  | none =>
      match c.goroot with
      | none => (.panicked "can't list GOROOT's src: I/O error" c, [])
      | some entries => (.ok () { c with std := some (stdNamesOf entries) }, [])

/-- `Writer.isStdLib(pkg)`. -/
def isStdLib (pkg : String) : WM Bool :=
  WM.bind ensureStdLibMapping (fun _ =>
    WM.bind getCore (fun c =>
      WM.pure (stdOf (c.std.getD []) pkg)))

/-- Lexicographic comparison of character lists (Go's `<` on strings is
byte-wise lexicographic; on the ASCII identifiers involved the two agree). -/
def strLtCh : List Char → List Char → Bool
  | [], [] => false
  | [], _ :: _ => true
  | _ :: _, [] => false
  | a :: as1, b :: bs =>
      if a == b then strLtCh as1 bs else decide (a < b)

/-- Go's `<` on strings. -/
def goStrLt (a b : String) : Bool := strLtCh a.data b.data

/-- Go's `<=` on strings (the reflection of `goStrLt`). -/
def goStrLe (a b : String) : Bool := !(goStrLt b a)

/-- The comparator passed to `sort.Slice` in `Writer.importDeps` (a strict
"less" predicate): standard-library entries first, then lexicographic by
path. -/
def depLess (std : String → Bool) (d0 d1 : Dep) : Bool :=
  if std d0.pkgPath != std d1.pkgPath then std d0.pkgPath
  else goStrLt d0.pkgPath d1.pkgPath

/-- A sorting algorithm as `sort.Slice` consumes it: it receives the strict
comparator and the list.  `sort.Slice` guarantees only that the result is a
sorted permutation (the algorithm is unspecified and unstable); `SorterOK`
below captures exactly that contract. -/
def SortImpl : Type := (Dep → Dep → Bool) → List Dep → List Dep

/-- Insert into a run sorted by the boolean relation `le`. -/
def insertB {α : Type} (le : α → α → Bool) (a : α) : List α → List α
  | [] => [a]
  | b :: l => if le a b then a :: b :: l else b :: insertB le a l

/-- Insertion sort by the boolean relation `le`. -/
def isortB {α : Type} (le : α → α → Bool) : List α → List α
  | [] => []
  | a :: l => insertB le a (isortB le l)

/-- The default model of `sort.Slice`: insertion sort by the reflected
non-strict relation (`¬ less b a`).  Any other correct algorithm yields the
same list here: the comparator is total and strict on the deduplicated
input — this is proved as claim C7. -/
def goSortSlice : SortImpl := fun less l => isortB (fun a b => !(less b a)) l

/-- The sorted, deduplicated dependency list of `Writer.importDeps`,
parameterized by the sorting algorithm (`sort.Slice` leaves it unspecified). -/
def sortedImportDeps (σ : SortImpl) (stdm : List String) (deps : List Dep) : List Dep :=
  σ (depLess (stdOf stdm)) (dedupDeps deps)

/-- The emission loop of `Writer.importDeps`, carrying the `lastStd` flag
that inserts the single blank separator line between the standard-library
group and the external group. -/
def emitImportLines (stdm : List String) : Bool → List Dep → WM Unit
  | _, [] => WM.pure ()
  | lastStd, d :: ds => do
      if stdOf stdm d.pkgPath then do
        line ["\t", "\"", d.pkgPath, "\""]
        emitImportLines stdm true ds
      else do
        if lastStd then line []
        line ["\t", "\"", d.pkgPath, "\""]
        emitImportLines stdm false ds

/-- `Writer.importDeps(deps)`: deduplicate; nothing to do when empty;
otherwise ensure the std-lib table (its lazy construction is triggered by the
first `isStdLib` call — inside the sort comparator or the emission loop — and
can only panic before any import text is emitted), sort, and emit the import
block. -/
def importDeps (sd : List String → List Dep → List Dep) (deps : List Dep) : WM Unit := do
  let dd := dedupDeps deps
  if dd.isEmpty then WM.pure ()
  else do
    ensureStdLibMapping
    let c ← getCore
    let stdm := c.std.getD []
    let sorted := sd stdm deps
    line ["import ("]
    emitImportLines stdm false sorted
    line [")"]
    line []

/-! ### Code synthesizer -/

/-- `Writer.call(args)` (the argument-list loop). -/
def callLoop : Bool → List String → WM Unit
  | _, [] => WM.pure ()
  | isFirst, a :: rest => do
      if isFirst then WM.pure () else code [", "]
      code [a]
      callLoop false rest

/-- `Writer.call(args)`. -/
def call (args : List String) : WM Unit := do
  code ["("]
  callLoop true args
  line [")"]

/-- The hook loop of `Writer.isZero`. -/
def isZeroHookLoop (t : String) : List Hook → WM Unit
  | [] => WM.pure ()
  | h :: hs => do
      line ["if ", t, ".", h.name, " != nil \x7b"]
      block (line ["return false"])
      line ["\x7d"]
      isZeroHookLoop t hs

/-- `Writer.isZero(trace)`. -/
def isZero (tr : Trace) : WM Unit :=
  newScope do
    let t ← declare "part_000:295" "t"
    line ["// isZero checks whether ", t, " is empty"]
    line ["func (", t, " ", tr.name, ") isZero() bool \x7b"]
    block do
      isZeroHookLoop t tr.hooks
      line ["return true"]
    line ["\x7d"]

/-- `nameParam(p)`: the declared name, or the first character of the
identifier derived from the type's basename for an unnamed parameter,
unexported. -/
def nameParam (p : Param) : String :=
  unexported (if p.name == "" then firstChar (ident (typeBasename p.type)) else p.name)

/-- `Writer.declareParams(src)`. -/
def declareParams : List Param → WM (List String)
  | [] => WM.pure []
  | p :: ps => do
      let n ← declare "part_000:541" (nameParam p)
      let ns ← declareParams ps
      WM.pure (n :: ns)

/-- `flattenStruct(dst, s)`: append one parameter per exported field; a
field named exactly after its type's basename (embedded field) loses its
name.  Field types are taken as-is: nested structs are not recursively
flattened. -/
def flattenStruct (dst : List Param) : List (String × Bool × GoType) → List Param
  | [] => dst
  | f :: fs =>
      if fieldExported f then
        let nm := if fieldName f == typeBasename (fieldType f) then "" else fieldName f
        flattenStruct (dst ++ [⟨nm, fieldType f⟩]) fs
      else flattenStruct dst fs

/-- The accumulator loop of `flattenParams`. -/
def flattenParamsGo (dst : List Param) : List Param → List Param
  | [] => dst
  | p :: ps =>
      match structFields p.type with
      | some s => flattenParamsGo (flattenStruct dst s) ps
      | none => flattenParamsGo (dst ++ [p]) ps

/-- `flattenParams(params)`: replace each struct-typed parameter by its
exported fields (one level). -/
def flattenParams (params : List Param) : List Param := flattenParamsGo [] params

/-- The field-assignment loop of `Writer.constructStruct`: one emitted
assignment and one consumed variable per exported field (`vars[0]` on an
exhausted slice is a Go runtime fault). -/
def constructStructLoop (p : String) : List (String × Bool × GoType) → List String → WM (List String)
  | [], vars => WM.pure vars
  | f :: fs, vars => do
      if fieldExported f then
        match vars with
        | [] => goPanic "runtime error: index out of range"
        | v :: vs => do
            line [p, ".", fieldName f, " = ", v]
            constructStructLoop p fs vs
      else constructStructLoop p fs vars

/-- `Writer.constructStruct(n, s, vars)`: declare a fresh `p`, emit
`var p T` and one assignment per exported field, return `p` and the
unconsumed variables. -/
def constructStruct (n : GoType) (s : List (String × Bool × GoType)) (vars : List String) : WM (String × List String) := do
  let p ← declare "part_000:605" "p"
  let c ← getCore
  line ["var ", p, " ", typeStringQ c.pkgPath n]
  let rest ← constructStructLoop p s vars
  WM.pure (p, rest)

/-- `Writer.constructParams(params, names)`: rebuild struct-typed parameters
from their flattened names, pass other parameters through. -/
def constructParams : List Param → List String → WM (List String)
  | [], _ => WM.pure []
  | p :: ps, names =>
      match structFields p.type with
      | some s => do
          let r ← constructStruct p.type s names
          let res ← constructParams ps r.2
          WM.pure (r.1 :: res)
      | none =>
          match names with
          | [] => goPanic "runtime error: index out of range"
          | n :: rest => do
              let res ← constructParams ps rest
              WM.pure (n :: res)

/-- `Writer.funcParam(p)`: declare the parameter's name and emit
`name type`. -/
def funcParam (p : Param) : WM String := do
  let name ← declare "part_000:760" (nameParam p)
  code [name, " "]
  let c ← getCore
  code [typeStringQ c.pkgPath p.type]
  WM.pure name

/-- The loop of `Writer.funcParams`. -/
def funcParamsLoop : Bool → List Param → WM (List String)
  | _, [] => WM.pure []
  | isFirst, p :: ps => do
      if isFirst then WM.pure () else code [", "]
      let v ← funcParam p
      let vs ← funcParamsLoop false ps
      WM.pure (v :: vs)

/-- `Writer.funcParams(params)`. -/
def funcParams (params : List Param) : WM (List String) := do
  code ["("]
  let vs ← funcParamsLoop true params
  code [")"]
  WM.pure vs

/-- `Writer.funcParamSign(p)`: a documentation-only parameter name
(`_` for one-letter or predeclared names) plus the type. -/
def funcParamSign (p : Param) : WM Unit := do
  let nm := nameParam p
  let nm := if nm.length == 1 || isPredeclared nm then "_" else nm
  code [nm, " "]
  let c ← getCore
  code [typeStringQ c.pkgPath p.type]

/-- `haveNames(params)`: some parameter has a name longer than one character
that is not predeclared. -/
def haveNames (params : List Param) : Bool :=
  params.any (fun p =>
    let nm := nameParam p
    nm.length > 1 && !isPredeclared nm)

/-- The parameter loop shared by `funcSignatureFlags` and
`shortcutFuncSignFlags` (type-only unless the docs flag is set and the
parameters have usable names). -/
def funcSigParamsLoop (docsOn hn : Bool) : Bool → List Param → WM Unit
  | _, [] => WM.pure ()
  | isFirst, p :: ps => do
      if isFirst then WM.pure () else code [", "]
      if docsOn && hn then funcParamSign p
      else do
        let c ← getCore
        code [typeStringQ c.pkgPath p.type]
      funcSigParamsLoop docsOn hn false ps

/-- The `func(params)` head shared by the branches of
`funcSignatureFlags`. -/
def funcSigHead (docsOn : Bool) (ps : List Param) : WM Unit := do
  code ["func("]
  funcSigParamsLoop docsOn (haveNames ps) true ps
  code [")"]

/-- `Writer.funcSignatureFlags(fn, flags)`: render `func(params) results`
(the branch on the result slot inlines `funcResultsFlags`, with the extra
space emitted exactly when the result is a continuation — `isFuncResult`). -/
def funcSignatureFlags : Func → Bool → WM Unit
  | .mk ps none, docsOn => funcSigHead docsOn ps
  | .mk ps (some (.traceRef nm)), docsOn => do
      funcSigHead docsOn ps
      code [nm, " "]
  | .mk ps (some (.func x)), docsOn => do
      funcSigHead docsOn ps
      code [" "]
      funcSignatureFlags x docsOn

/-- `Writer.funcResultsFlags(fn, flags)`: render the result slot (a
continuation signature or a nested-trace type name). -/
def funcResultsFlags : Func → Bool → WM Unit
  | .mk _ none, _ => WM.pure ()
  | .mk _ (some (.traceRef nm)), _ => code [nm, " "]
  | .mk _ (some (.func x)), docsOn => funcSignatureFlags x docsOn

/-- `Writer.funcResults(fn)`. -/
def funcResults (fn : Func) : WM Unit := funcResultsFlags fn false

/-- `Writer.funcSignature(fn)`. -/
def funcSignature (fn : Func) : WM Unit := funcSignatureFlags fn false

/-- `Writer.shortcutFuncSignFlags(fn, flags)`: like `funcSignatureFlags`
but with the parameters flattened. -/
def shortcutFuncSignFlags : Func → Bool → WM Unit
  | .mk ps none, docsOn => funcSigHead docsOn (flattenParams ps)
  | .mk ps (some (.traceRef nm)), docsOn => do
      funcSigHead docsOn (flattenParams ps)
      code [nm, " "]
  | .mk ps (some (.func x)), docsOn => do
      funcSigHead docsOn (flattenParams ps)
      code [" "]
      shortcutFuncSignFlags x docsOn

/-- `Writer.shortcutFuncResultsFlags(fn, flags)`. -/
def shortcutFuncResultsFlags : Func → Bool → WM Unit
  | .mk _ none, _ => WM.pure ()
  | .mk _ (some (.traceRef nm)), _ => code [nm, " "]
  | .mk _ (some (.func x)), docsOn => shortcutFuncSignFlags x docsOn

/-- `Writer.shortcutFuncResults(fn)`. -/
def shortcutFuncResults (fn : Func) : WM Unit := shortcutFuncResultsFlags fn false

/-- `Writer.zeroReturn(fn)`: the statically known zero value for the result
shape — an always-unset continuation or an empty nested trace. -/
def zeroReturn : Func → WM Unit
  | .mk _ none => line ["return"]
  | .mk _ (some (.func x)) => do
      code ["return "]
      funcSignature x
      line [" \x7b"]
      block (zeroReturn x)
      line ["\x7d"]
  | .mk _ (some (.traceRef nm)) => do
      code ["return "]
      line [nm, "\x7b\x7d"]

/-- `Writer.hookFuncCall(fn, name, args)`: invoke the hook value and unfold
continuation results recursively (the three branches follow the source's
`fn.HasResult()` / result-variant dispatch). -/
def hookFuncCall : Func → String → List String → WM Unit
  | .mk _ none, name, args => do
      code [name]
      call args
  | .mk ps (some (.func rf)), name, args => do
      let res ← declare "part_000:492" "res"
      code [res, " := "]
      code [name]
      call args
      line ["if ", res, " == nil \x7b"]
      block (zeroReturn (.mk ps (some (.func rf))))
      line ["\x7d"]
      if rf.hasResult then
        newScope do
          code ["return func"]
          let args2 ← funcParams rf.params
          code [" "]
          funcResults rf
          line [" \x7b"]
          block (hookFuncCall rf res args2)
          line ["\x7d"]
      else line ["return ", res]
  | .mk _ (some (.traceRef _)), name, args => do
      let res ← declare "part_000:492" "res"
      code [res, " := "]
      code [name]
      call args
      line ["return ", res]

/-- The parameter loop of `Writer.hook`. -/
def hookParamsLoop : Bool → List Param → WM (List String)
  | _, [] => WM.pure []
  | isFirst, p :: ps => do
      if isFirst then WM.pure () else code [", "]
      let a ← funcParam p
      let rest ← hookParamsLoop false ps
      WM.pure (a :: rest)

/-- `Writer.hook(trace, hook)`: the nil-safe internal forwarder method. -/
def hook (tr : Trace) (h : Hook) : WM Unit :=
  newScope do
    let t ← declare "part_000:456" "t"
    let fn ← declare "part_000:457" "fn"
    code ["func (", t, " *", tr.name, ") ", unexported h.name]
    code ["("]
    let args ← hookParamsLoop true h.func.params
    code [")"]
    if h.func.hasResult then code [" "] else WM.pure ()
    funcResultsFlags h.func true
    line [" \x7b"]
    block do
      line [fn, " := ", t, ".", h.name]
      line ["if ", fn, " == nil \x7b"]
      block (zeroReturn h.func)
      line ["\x7d"]
      hookFuncCall h.func fn args
    line ["\x7d"]

/-- One arm of the `for i, h := range []string{h1, h2}` loop of
`Writer.composeHookCall`: the nil-guarded call of one side. -/
def composeCallSide (hasRes : Bool) (h r : String) (args : List String) : WM Unit := do
  line ["if " ++ h ++ " != nil \x7b"]
  block do
    if hasRes then code [r, " = "] else WM.pure ()
    code [h]
    call args
  line ["\x7d"]

/-- The recovery guard emitted at the top of the merged-hook body by
`composeHookCall`: one `defer`red `recover` installed for the whole body
when the recovery callback is set. -/
def composeGuard : WM Unit := do
  line ["if options.panicCallback != nil \x7b"]
  block do
    line ["defer func() \x7b"]
    block do
      line ["if e := recover(); e != nil \x7b"]
      block (line ["options.panicCallback(e)"])
      line ["\x7d"]
    line ["\x7d()"]
  line ["\x7d"]

/-- `Writer.composeHookCall(fn, h1, h2)`: the merged-hook function literal.
Note the shape of the emitted body: one `defer`red `recover` guard
(`composeGuard`) at the top of the whole body, followed by the two
nil-guarded calls — the two calls are not individually guarded.  The three
branches follow the source's `fn.HasResult()` / result-variant dispatch. -/
def composeHookCall : Func → String → String → WM Unit
  | .mk ps none, h1, h2 =>
      newScope do
        capture "part_000:360" [h1, h2]
        block do
          capture "part_000:362" [h1, h2]
          code ["func"]
          let args ← funcParams ps
          funcResults (.mk ps none)
          line [" \x7b"]
          composeGuard
          composeCallSide false h1 "" args
          composeCallSide false h2 "" args
        line ["\x7d"]
  | .mk ps (some (.func x)), h1, h2 =>
      newScope do
        capture "part_000:360" [h1, h2]
        block do
          capture "part_000:362" [h1, h2]
          code ["func"]
          let args ← funcParams ps
          code [" "]
          funcResults (.mk ps (some (.func x)))
          line [" \x7b"]
          composeGuard
          let r1 ← declare "part_000:389" "r"
          let r2 ← declare "part_000:390" "r"
          code ["var " ++ r1 ++ ", " ++ r2 ++ " "]
          funcResults (.mk ps (some (.func x)))
          nlEOL
          composeCallSide true h1 r1 args
          composeCallSide true h2 r2 args
          code ["return "]
          composeHookCall x r1 r2
        line ["\x7d"]
  | .mk ps (some (.traceRef nm)), h1, h2 =>
      newScope do
        capture "part_000:360" [h1, h2]
        block do
          capture "part_000:362" [h1, h2]
          code ["func"]
          let args ← funcParams ps
          code [" "]
          funcResults (.mk ps (some (.traceRef nm)))
          line [" \x7b"]
          composeGuard
          let r1 ← declare "part_000:389" "r"
          let r2 ← declare "part_000:390" "r"
          code ["var " ++ r1 ++ ", " ++ r2 ++ " "]
          funcResults (.mk ps (some (.traceRef nm)))
          nlEOL
          composeCallSide true h1 r1 args
          composeCallSide true h2 r2 args
          code ["return "]
          line [r1, ".Compose(", r2, ")"]
        line ["\x7d"]

/-- `Writer.composeHook(hook, t1, t2, dst)`. -/
def composeHook (h : Hook) (t1 t2 dst : String) : WM Unit := do
  line ["\x7b"]
  block do
    let h1 ← declare "part_000:348" "h1"
    let h2 ← declare "part_000:349" "h2"
    line [h1, " := ", t1, ".", h.name]
    line [h2, " := ", t2, ".", h.name]
    code [dst, " = "]
    composeHookCall h.func h1 h2
  line ["\x7d"]

/-- The hook loop of `Writer.compose`. -/
def composeHooksLoop (t x ret : String) : List Hook → WM Unit
  | [] => WM.pure ()
  | h :: hs => do
      composeHook h t x (ret ++ "." ++ h.name)
      composeHooksLoop t x ret hs

/-- `Writer.compose(trace)`: the `Compose` method. -/
def compose (tr : Trace) : WM Unit :=
  newScope do
    let t ← declare "part_000:314" "t"
    let x ← declare "part_000:315" "x"
    let ret ← declare "part_000:316" "ret"
    line ["// Compose returns a new ", tr.name,
      " which has functional fields composed both from ", t, " and ", x, "."]
    code ["func (", t, " *", tr.name, ") Compose(", x, " *", tr.name,
      ", opts ..." ++ tr.name ++ "ComposeOption) "]
    line ["*", tr.name, " \x7b"]
    block do
      line ["var ", ret, " ", tr.name, ""]
      if tr.hooks.isEmpty then WM.pure ()
      else do
        line ["options := ", unexported tr.name, "ComposeOptions\x7b\x7d"]
        line ["for _, opt := range opts \x7b"]
        block do
          line ["if opt != nil \x7b"]
          block (line ["opt(&options)"])
          line ["\x7d"]
        line ["\x7d"]
      composeHooksLoop t x ret tr.hooks
      line ["return &", ret]
    line ["\x7d"]

/-- `Writer.options(trace)`: the compose-options holder, the option type and
the panic-callback setter. -/
def options (tr : Trace) : WM Unit := do
  newScope do
    line ["// " ++ unexported tr.name ++ "ComposeOptions is a holder of options"]
    line ["type " ++ unexported tr.name ++ "ComposeOptions struct \x7b"]
    block (line ["panicCallback func(e interface\x7b\x7d)"])
    line ["\x7d"]
    rawNL
  newScope do
    line ["// " ++ tr.name ++ "Option specified " ++ tr.name ++ " compose option"]
    line ["type " ++ tr.name ++ "ComposeOption func(o *" ++ unexported tr.name ++ "ComposeOptions)"]
    rawNL
  newScope do
    line ["// With" ++ tr.name ++ "PanicCallback specified behavior on panic"]
    line ["func With" ++ tr.name ++ "PanicCallback(cb func(e interface\x7b\x7d)) " ++ tr.name ++ "ComposeOption \x7b"]
    block do
      line ["return func(o *" ++ unexported tr.name ++ "ComposeOptions) \x7b"]
      block (line ["o.panicCallback = cb"])
      line ["\x7d"]
    line ["\x7d"]
    rawNL

/-- The parameter loop of `Writer.hookShortcut` (a comma before every
parameter: the trace pointer comes first). -/
def shortcutParamsLoop : List Param → List String → WM Unit
  | [], _ => WM.pure ()
  | p :: ps, n :: ns => do
      code [", "]
      let c ← getCore
      code [n, " ", typeStringQ c.pkgPath p.type]
      shortcutParamsLoop ps ns
  | _ :: _, [] => goPanic "runtime error: index out of range"

/-- The parameter loop of `Writer.hookFuncShortcut`. -/
def hfsParamsLoop : Bool → List Param → List String → WM Unit
  | _, [], _ => WM.pure ()
  | isFirst, p :: ps, n :: ns => do
      if isFirst then WM.pure () else code [", "]
      let c ← getCore
      code [n, " ", typeStringQ c.pkgPath p.type]
      hfsParamsLoop false ps ns
  | _, _ :: _, [] => goPanic "runtime error: index out of range"

/-- `Writer.hookFuncShortcut(fn, name)`: the flattened wrapper around a
continuation result (the three branches follow the source's
`fn.HasResult()` / result-variant dispatch). -/
def hookFuncShortcut : Func → String → WM Unit
  | .mk ps none, name =>
      newScope do
        code ["func("]
        let params := flattenParams ps
        let names ← declareParams params
        hfsParamsLoop true params names
        code [")"]
        shortcutFuncResults (.mk ps none)
        line [" \x7b"]
        block do
          capture "part_000:698" names
          let params2 ← constructParams ps names
          code [name]
          call params2
        line ["\x7d"]
  | .mk ps (some (.func x)), name =>
      newScope do
        code ["func("]
        let params := flattenParams ps
        let names ← declareParams params
        hfsParamsLoop true params names
        code [")"]
        code [" "]
        shortcutFuncResults (.mk ps (some (.func x)))
        line [" \x7b"]
        block do
          capture "part_000:698" names
          let params2 ← constructParams ps names
          let res ← declare "part_000:704" "res"
          code [res, " := "]
          code [name]
          call params2
          code ["return "]
          hookFuncShortcut x res
        line ["\x7d"]
  | .mk ps (some (.traceRef nm)), name =>
      newScope do
        code ["func("]
        let params := flattenParams ps
        let names ← declareParams params
        hfsParamsLoop true params names
        code [")"]
        code [" "]
        shortcutFuncResults (.mk ps (some (.traceRef nm)))
        line [" \x7b"]
        block do
          capture "part_000:698" names
          let params2 ← constructParams ps names
          let res ← declare "part_000:704" "res"
          code [res, " := "]
          code [name]
          call params2
          code ["return "]
          line [res]
        line ["\x7d"]

/-- `Writer.hookShortcut(trace, hook)`: the public shortcut function, with
struct parameters flattened into positional arguments. -/
def hookShortcut (tr : Trace) (h : Hook) : WM Unit := do
  let name := exported (tempName [tr.name, h.name])
  mustDeclare "part_000:623" name
  newScope do
    let t ← declare "part_000:626" "t"
    code ["func ", name]
    code ["("]
    let ctx := ""
    code [t, " *", tr.name]
    let params := flattenParams h.func.params
    let names ← declareParams params
    shortcutParamsLoop params names
    code [")"]
    if h.func.hasResult then code [" "] else WM.pure ()
    shortcutFuncResultsFlags h.func true
    line [" \x7b"]
    block do
      capture "part_000:648" names
      let vars ← constructParams h.func.params names
      let res ← (if h.func.hasResult then do
          let r ← declare "part_000:653" "res"
          code [r, " := "]
          WM.pure r
        else WM.pure "")
      code [t, ".", unexported h.name]
      let vars := if ctx != "" then ctx :: vars else vars
      call vars
      match h.func.result with
      | none => WM.pure ()
      | some (.func x) => do
          code ["return "]
          hookFuncShortcut x res
      | some (.traceRef _) => do
          code ["return "]
          line [res]
    line ["\x7d"]

/-! ### `Writer.Write` -/

/-- The generated-file marker. -/
def genMarker : String := "// Code generated by gtrace. DO NOT EDIT."

/-- The build-constraint loop of `Writer.Write` (a blank line before the
first constraint). -/
def emitConstraints : Bool → List String → WM Unit
  | _, [] => WM.pure ()
  | isFirst, s :: rest => do
      if isFirst then line [] else WM.pure ()
      line [s]
      emitConstraints false rest

/-- The hook-forwarder loop of one trace in `Writer.Write`. -/
def emitHooksOf (tr : Trace) : List Hook → WM Unit
  | [] => WM.pure ()
  | h :: hs => do
      hook tr h
      emitHooksOf tr hs

/-- The per-trace body of `Writer.Write`'s first loop: options, `Compose`,
`isZero` for nested traces only, then the hook forwarders. -/
def traceBody (tr : Trace) : WM Unit := do
  options tr
  compose tr
  if tr.nested then isZero tr else WM.pure ()
  emitHooksOf tr tr.hooks

/-- The first trace loop of `Writer.Write`. -/
def emitTraceBodies : List Trace → WM Unit
  | [] => WM.pure ()
  | t :: ts => do
      traceBody t
      emitTraceBodies ts

/-- The shortcut loop of one trace in `Writer.Write`. -/
def emitShortcutsOf (tr : Trace) : List Hook → WM Unit
  | [] => WM.pure ()
  | h :: hs => do
      hookShortcut tr h
      emitShortcutsOf tr hs

/-- The second trace loop of `Writer.Write` (all shortcuts, trace order then
hook order). -/
def emitShortcutsAll : List Trace → WM Unit
  | [] => WM.pure ()
  | t :: ts => do
      emitShortcutsOf t t.hooks
      emitShortcutsAll ts

/-- The body of `Writer.Write`'s outermost `newScope`. -/
def writeBody (p : Package) : WM Unit := do
  emitTraceBodies p.traces
  emitShortcutsAll p.traces

/-- `Writer.Write(p)` up to the final `Flush`, parameterized by the
import-sorting function (see `SortImpl`). -/
def writeProgAux (sd : List String → List Dep → List Dep) (p : Package) : WM Unit := do
  line [genMarker]
  emitConstraints true p.buildConstraints
  line []
  line ["package ", p.pkgName]
  line []
  importDeps sd (collectDeps p.pkgPath [] p.traces)
  newScope (writeBody p)

/-- `Writer.Write(p)` with the sorting algorithm `σ` standing in for
`sort.Slice`. -/
def writeProg (σ : SortImpl) (p : Package) : WM Unit :=
  writeProgAux (sortedImportDeps σ) p

/-- The state of a freshly `init`ed writer for package `p` in environment
`env` (the `ReadDir(GOROOT/src)` outcome). -/
def initCore (p : Package) (env : Option (List (String × Bool))) : WCore :=
  { atEOL := false, depth := 0, scopes := [], pkgPath := p.pkgPath,
    pkgName := p.pkgName, globals := p.globals, std := none, goroot := env }

/-- One full run of `Writer.Write` on `p`: outcome plus the ordered chunks
handed to the buffered writer. -/
def writeRun (p : Package) (env : Option (List (String × Bool))) : WRes Unit × List String :=
  writeProg goSortSlice p (initCore p env)

/-! ### The buffered writer (`bufio.Writer`)

`bufio.NewWriter` allocates a 4096-byte buffer; a write that no longer fits
first causes the buffered bytes to reach the underlying sink insides the run
(it is not atomic).  The embedding keeps whole chunks instead of splitting a
chunk at the capacity boundary (Go copies a prefix of the incoming string to
fill the buffer exactly); the two behaviours agree on whether the sink has
received data, on the no-flush regime (total bytes ≤ capacity), and on the
full content once flushed. -/

/-- The `bufio.NewWriter` default buffer size. -/
def writerBufCap : Nat := 4096

/-- Buffered-writer state: pending chunks with their total byte length, and
the chunks already written to the underlying sink. -/
structure BufSt where
  buf : List String
  bufLen : Nat
  sink : List String
  deriving DecidableEq, Repr

/-- A fresh buffered writer. -/
def bufInit : BufSt := ⟨[], 0, []⟩

/-- `bufio.Writer.Flush`. -/
def bflush (b : BufSt) : BufSt := ⟨[], 0, b.sink ++ b.buf⟩

/-- One `WriteString`/`WriteByte`: keep buffering while the chunk fits,
otherwise flush the pending bytes first (an over-capacity chunk goes to the
sink directly, as in `bufio`'s large-write bypass). -/
def bwrite (b : BufSt) (s : String) : BufSt :=
  if b.bufLen + s.length ≤ writerBufCap then ⟨b.buf ++ [s], b.bufLen + s.length, b.sink⟩
  else if s.length ≤ writerBufCap then ⟨[s], s.length, b.sink ++ b.buf⟩
  else ⟨[], 0, b.sink ++ b.buf ++ [s]⟩

/-- Feed a chunk list through the buffered writer. -/
def bwriteAll (b : BufSt) : List String → BufSt
  | [] => b
  | s :: rest => bwriteAll (bwrite b s) rest

/-- What the `Output` sink has received after a run of `Writer.Write`: the
final `w.bw.Flush()` runs only on the non-panicking path. -/
def writeSink (p : Package) (env : Option (List (String × Bool))) : List String :=
  match writeRun p env with
  | (.ok _ _, out) => (bflush (bwriteAll bufInit out)).sink
  | (.panicked _ _, out) => (bwriteAll bufInit out).sink

/-! ### Runtime semantics of the generated merged hook (for claim C1)

`composeHookCall` (with both sides set) emits, for each hook slot, a merged
function of the shape

  func(params) results \x7b
      if options.panicCallback != nil \x7b
          defer func() \x7b
              if e := recover(); e != nil \x7b
                  options.panicCallback(e)
              \x7d
          \x7d()
      \x7d
      var r, r1 R
      if h1 != nil \x7b r = h1(args) \x7d
      if h2 != nil \x7b r1 = h2(args) \x7d
      return ...
  \x7d

`mergedHookRun` is the Go evaluation of that body: a single deferred
`recover` guards the whole body, so a panic in either call unwinds the rest
of the body (skipping the sibling call when the first side panics), invokes
the callback once, and is swallowed; without the callback the panic
propagates to the caller. -/

/-- Observable outcome of one invocation of the merged hook: which side's
call ran, how many times the recovery callback was invoked, and whether a
panic escaped to the caller. -/
structure MergedObs where
  ran1 : Bool
  ran2 : Bool
  cbCalls : Nat
  escaped : Bool
  deriving DecidableEq, Repr

/-- Go semantics of the merged-hook body emitted by `composeHookCall`:
`cbSet` says whether the recovery-callback option was supplied; `h1`/`h2`
are `none` when the side's hook is unset, `some f` when it is set and its
call faults iff `f`. -/
def mergedHookRun (cbSet : Bool) (h1 h2 : Option Bool) : MergedObs :=
  let s1 : Bool × Bool := match h1 with
    | none => (false, false)
    | some f => (true, f)
  if s1.2 then
    -- the first call panicked: the body unwinds, the second `if` never runs
    if cbSet then ⟨s1.1, false, 1, false⟩ else ⟨s1.1, false, 0, true⟩
  else
    match h2 with
    | none => ⟨s1.1, false, 0, false⟩
    | some f2 =>
      if f2 then
        if cbSet then ⟨s1.1, true, 1, false⟩ else ⟨s1.1, true, 0, true⟩
      else ⟨s1.1, true, 0, false⟩

/-! ### Value-level view of struct reconstruction (for claim C5) -/

/-- The field-to-argument assignments performed by the code that
`constructStruct` emits: the i-th exported field receives the i-th
positional argument; unexported fields are skipped (they keep their zero
value).  Returns `none` when the arguments run out (the Go code would fault
on `vars[0]`). -/
def structAssigns : List (String × Bool × GoType) → List String → Option (List (String × String) × List String)
  | [], vars => some ([], vars)
  | f :: fs, vars =>
      if fieldExported f then
        match vars with
        | [] => none
        | v :: vs =>
            match structAssigns fs vs with
            | some r => some ((fieldName f, v) :: r.1, r.2)
            | none => none
      else structAssigns fs vars

/-! ### Result extractors (for stating concrete runs compactly) -/

/-- The returned value of a non-panicking outcome. -/
def resVal {α : Type} : WRes α → Option α
  | .ok a _ => some a
  | .panicked _ _ => none

/-- The message of a panicking outcome. -/
def resPanic {α : Type} : WRes α → Option String
  | .ok _ _ => none
  | .panicked m _ => some m

/-- A writer state with one (outermost) scope and no module-scope symbols. -/
def coreScope1 : WCore :=
  { atEOL := false, depth := 0, scopes := [⟨[]⟩], pkgPath := "pkg/self",
    pkgName := "self", globals := [], std := none, goroot := none }

/-! ### Lemmas about the scope allocator -/

theorem declareSearch_least (c : WCore) (name : String) :
    ∀ fuel i j, (∀ k, k < j → candBlocked c (candidateName name (i + k)) = true) →
      candBlocked c (candidateName name (i + j)) = false → j < fuel →
      declareSearch c name i fuel = some (candidateName name (i + j)) := by
  intro fuel
  induction fuel with
  | zero => intro i j _ _ h; omega
  | succ f ih =>
      intro i j hblocked hfree hlt
      cases j with
      | zero =>
          simp only [Nat.add_zero] at hfree
          simp [declareSearch, hfree]
      | succ j' =>
          have h0 : candBlocked c (candidateName name i) = true := by
            have := hblocked 0 (Nat.succ_pos j')
            simpa using this
          simp only [declareSearch, h0, if_pos]
          have := ih (i + 1) j'
            (fun k hk => by
              have := hblocked (k + 1) (by omega)
              simpa [Nat.add_assoc, Nat.add_comm, Nat.add_left_comm] using this)
            (by simpa [Nat.add_assoc, Nat.add_comm, Nat.add_left_comm] using hfree)
            (by omega)
          simpa [Nat.add_assoc, Nat.add_comm, Nat.add_left_comm] using this

theorem candBlocked_false_not_taken {c : WCore} {v : String} {s : GScope} {rest : List GScope}
    (hs : c.scopes = s :: rest) (h : candBlocked c v = false) :
    s.vars.any (fun d => d.name == v) = false := by
  unfold candBlocked at h
  rw [hs] at h
  rcases Bool.or_eq_false_iff.mp h with ⟨-, h2⟩
  exact h2

/-- The common success path of `declare`: the search finds candidate `i0`
and registers it in the current scope. -/
theorem declare_search_ok {site name : String} {c : WCore} {s : GScope} {rest : List GScope}
    (hs : c.scopes = s :: rest) (hpre : isPredeclared name = false) {i0 : Nat}
    (hblocked : ∀ k, k < i0 → candBlocked c (candidateName name k) = true)
    (hfree : candBlocked c (candidateName name i0) = false)
    (hfuel : i0 < declareFuel c) :
    declare site name c =
      (.ok (candidateName name i0)
        { c with scopes := ⟨s.vars ++ [⟨candidateName name i0, site⟩]⟩ :: rest }, []) := by
  unfold declare
  rw [hpre]
  simp only [Bool.false_eq_true, if_false]
  have hsearch := declareSearch_least c name (declareFuel c) 0 i0
    (by simpa using hblocked) (by simpa using hfree) hfuel
  simp only [Nat.zero_add] at hsearch
  rw [hsearch]
  have hnot := candBlocked_false_not_taken hs hfree
  simp [WM.bind, scopeSet, hs, hnot, WM.pure]


/-- Claim C2 (corrected): `declare(baseName)` — for a base name that is not
predeclared — returns the base name itself when it is free (candidate index
0), and otherwise appends increasing numeric suffixes starting at 1
(`name1`, `name2`, …) until a free candidate is found, registering the
chosen name; `declare("t")` twice in one scope yields `"t"` then `"t1"`;
the same base name declared in an unrelated sibling scope (after the first
scope was exited) does not collide and yields `"t"` again. -/
theorem c2_theorem :
    ((∀ name, candidateName name 0 = name) ∧
     (∀ i, 1 ≤ i → ∀ name, candidateName name i = name ++ toString i)) ∧
    (∀ (site name : String) (c : WCore) (s : GScope) (rest : List GScope) (i0 : Nat),
      c.scopes = s :: rest → isPredeclared name = false →
      (∀ k, k < i0 → candBlocked c (candidateName name k) = true) →
      candBlocked c (candidateName name i0) = false →
      i0 < declareFuel c →
      declare site name c =
        (.ok (candidateName name i0)
          { c with scopes := ⟨s.vars ++ [⟨candidateName name i0, site⟩]⟩ :: rest }, [])) ∧
    resVal ((WM.bind (declare "part_000:100" "t") (fun a =>
        WM.bind (declare "part_000:200" "t") (fun b =>
          WM.pure (a, b)))) coreScope1).1 = some ("t", "t1") ∧
    resVal ((WM.bind (newScope (declare "part_000:100" "t")) (fun a =>
        WM.bind (newScope (declare "part_000:200" "t")) (fun b =>
          WM.pure (a, b)))) coreScope1).1 = some ("t", "t") := by
  refine ⟨⟨fun name => rfl, fun i hi name => ?_⟩, ?_, ?_, ?_⟩
  · unfold candidateName
    have : (i == 0) = false := by
      cases i with
      | zero => omega
      | succ n => rfl
    rw [this]
    simp
  · intro site name c s rest i0 hs hpre hblocked hfree hfuel
    exact declare_search_ok hs hpre hblocked hfree hfuel
  · rfl
  · rfl

/-- Claim C2 counterexample: the claim's own instance fails — `declare("t")`
twice in one scope yields `("t", "t1")`, not the claimed `("t", "t0")`
(suffixes start at 1, not 0). -/
theorem c2_counterexample :
    resVal ((WM.bind (declare "part_000:100" "t") (fun a =>
        WM.bind (declare "part_000:200" "t") (fun b =>
          WM.pure (a, b)))) coreScope1).1 = some ("t", "t1") ∧
    some (("t" : String), ("t1" : String)) ≠ some ("t", "t0") := by
  exact ⟨rfl, by decide⟩

/-- Claim C2 witness: the general part of `c2_theorem` applied at a concrete
input — base name `"t"`, free in a fresh outermost scope, index 0. -/
theorem c2_witness :
    declare "s0" "t" coreScope1 =
      (.ok "t" { coreScope1 with scopes := [⟨[⟨"t", "s0"⟩]⟩] }, []) := by
  have h := c2_theorem.2.1 "s0" "t" coreScope1 ⟨[]⟩ [] 0 rfl (by decide)
    (fun k hk => absurd hk (Nat.not_lt_zero k)) (by decide) (by decide)
  exact h

/-- Claim C8 (confirmed): `mustDeclare(exactName)` registers the exact name
when it is free in the current scope, and panics (`HardCollision`) naming
both the colliding identifier and the source location of the prior
declaration when it is taken; calling it twice with `"x"` in one scope fails
on the second call referencing the first call site; `capture(name)` likewise
panics when the name is already taken in the current scope. -/
theorem c8_theorem :
    (∀ (site name : String) (c : WCore) (s : GScope) (rest : List GScope),
      c.scopes = s :: rest → s.vars.any (fun d => d.name == name) = false →
      mustDeclare site name c =
        (.ok () { c with scopes := ⟨s.vars ++ [⟨name, site⟩]⟩ :: rest }, [])) ∧
    (∀ (site name : String) (c : WCore) (s : GScope) (rest : List GScope) (d : GoDecl),
      c.scopes = s :: rest → s.vars.find? (fun d => d.name == name) = some d →
      mustDeclare site name c =
        (.panicked ("gtrace: can't declare identifier: " ++ goQuote name ++
          ": already defined at " ++ goQuote d.site) c, [])) ∧
    resPanic ((WM.bind (mustDeclare "part_000:100" "x") (fun _ =>
        mustDeclare "part_000:200" "x")) coreScope1).1 =
      some "gtrace: can't declare identifier: \"x\": already defined at \"part_000:100\"" ∧
    (∀ (site v : String) (c : WCore) (s : GScope) (rest : List GScope),
      c.scopes = s :: rest → s.vars.any (fun d => d.name == v) = true →
      capture site [v] c = (.panicked ("can't capture variable " ++ goQuote v) c, [])) := by
  refine ⟨?_, ?_, rfl, ?_⟩
  · intro site name c s rest hs hfree
    simp [mustDeclare, WM.bind, scopeSet, hs, hfree, WM.pure]
  · intro site name c s rest d hs hfound
    have htaken : s.vars.any (fun d => d.name == name) = true := by
      rw [List.any_eq_true]
      have := List.find?_some hfound
      have hmem := List.mem_of_find?_eq_some hfound
      exact ⟨d, hmem, this⟩
    simp [mustDeclare, WM.bind, scopeSet, hs, htaken, scopeWhere, hfound, goPanic]
  · intro site v c s rest hs htaken
    simp [capture, WM.bind, scopeSet, hs, htaken, goPanic]

/-- Claim C8 witness: both failure parts of `c8_theorem` at concrete inputs. -/
theorem c8_witness :
    mustDeclare "part_000:200" "x"
      { coreScope1 with scopes := [⟨[⟨"x", "part_000:100"⟩]⟩] } =
      (.panicked "gtrace: can't declare identifier: \"x\": already defined at \"part_000:100\""
        { coreScope1 with scopes := [⟨[⟨"x", "part_000:100"⟩]⟩] }, []) := by
  have h := c8_theorem.2.1 "part_000:200" "x"
    { coreScope1 with scopes := [⟨[⟨"x", "part_000:100"⟩]⟩] }
    ⟨[⟨"x", "part_000:100"⟩]⟩ [] ⟨"x", "part_000:100"⟩ rfl (by decide)
  exact h



theorem isPredeclared_firstChar (s : String) : isPredeclared (firstChar s) = false := by
  unfold firstChar
  have hall : ∀ x ∈ predeclaredNames, 2 ≤ x.length := by decide
  match hd : s.data with
  | [] => decide
  | c :: cs =>
      by_contra hcon
      rw [Bool.not_eq_false] at hcon
      unfold isPredeclared at hcon
      have hmem : String.mk [c] ∈ predeclaredNames := by simpa using hcon
      have hlen := hall _ hmem
      have : (String.mk [c]).length = 1 := rfl
      omega

/-- Claim C9 (confirmed): for a predeclared (universe-scope) base name,
`declare` first replaces the base name by its first character and only then
runs the collision search — declaring is the same as declaring the
one-character name (which is never predeclared); concretely, `"error"`
yields `"e"` and `"string"` yields `"s"` in a fresh scope. -/
theorem c9_theorem :
    (∀ (site name : String) (c : WCore), isPredeclared name = true →
      declare site name c = declare site (firstChar name) c) ∧
    resVal ((declare "part_000:101" "error") coreScope1).1 = some "e" ∧
    resVal ((declare "part_000:101" "string") coreScope1).1 = some "s" := by
  refine ⟨?_, rfl, rfl⟩
  intro site name c hpre
  unfold declare
  rw [hpre, isPredeclared_firstChar name]
  simp

/-- Claim C9 witness: the general part of `c9_theorem` applied at the
predeclared name `"error"`. -/
theorem c9_witness :
    declare "part_000:101" "error" coreScope1 = declare "part_000:101" "e" coreScope1 := by
  exact c9_theorem.1 "part_000:101" "error" coreScope1 (by decide)

theorem stdNamesOf_eq (entries : List (String × Bool)) :
    stdNamesOf entries =
      (entries.filter (fun e => e.2 && e.1 != "cmd" && e.1 != "internal")).map Prod.fst := by
  induction entries with
  | nil => rfl
  | cons e rest ih =>
      obtain ⟨n, b⟩ := e
      by_cases hb : (b && n != "cmd" && n != "internal") = true
      · simp only [stdNamesOf, hb, if_true, List.filter_cons, List.map_cons, ih]
      · simp only [stdNamesOf, hb, if_false, List.filter_cons, ih]
        rw [Bool.not_eq_true] at hb
        simp [hb]

theorem stdNamesOf_contains (entries : List (String × Bool)) (name : String) :
    (stdNamesOf entries).contains name = true ↔
      ((name, true) ∈ entries ∧ name ≠ "cmd" ∧ name ≠ "internal") := by
  rw [stdNamesOf_eq]
  constructor
  · intro h
    have h' : name ∈ (entries.filter (fun e => e.2 && e.1 != "cmd" && e.1 != "internal")).map Prod.fst := by
      simpa using h
    rcases List.mem_map.mp h' with ⟨⟨n, b⟩, hmem, hfst⟩
    rcases List.mem_filter.mp hmem with ⟨hin, hcond⟩
    have hparts : b = true ∧ n ≠ "cmd" ∧ n ≠ "internal" := by
      simpa [and_assoc] using hcond
    cases hfst
    exact ⟨hparts.1 ▸ hin, hparts.2⟩
  · rintro ⟨hmem, hcmd, hint⟩
    have : name ∈ (entries.filter (fun e => e.2 && e.1 != "cmd" && e.1 != "internal")).map Prod.fst := by
      refine List.mem_map.mpr ⟨(name, true), List.mem_filter.mpr ⟨hmem, ?_⟩, rfl⟩
      simp [hcmd, hint]
    simpa using this

/-- A concrete environment for the C10 witness. -/
def c10core : WCore :=
  { atEOL := false, depth := 0, scopes := [⟨[]⟩], pkgPath := "pkg/self",
    pkgName := "self", globals := [], std := none,
    goroot := some [("fmt", true), ("cmd", true), ("nondir", false)] }

/-- Claim C10 (confirmed): std-lib classification looks only at the path's
first segment (`strings.Split(pkg, "/")[0]`); a path is classified standard
iff that segment names a directory directly under `GOROOT/src`, with `cmd`
and `internal` always excluded (files are ignored); the table is built once
on first use (an already-built table is never touched again, and `isStdLib`
on a built table leaves the state unchanged). -/
theorem c10_theorem :
    (∀ (m : List String) (pkg pkg' : String), firstSeg pkg = firstSeg pkg' →
      stdOf m pkg = stdOf m pkg') ∧
    (∀ (entries : List (String × Bool)) (name : String),
      (stdNamesOf entries).contains name = true ↔
        ((name, true) ∈ entries ∧ name ≠ "cmd" ∧ name ≠ "internal")) ∧
    (∀ (c : WCore) (entries : List (String × Bool)) (pkg : String),
      c.std = none → c.goroot = some entries →
      isStdLib pkg c =
        (.ok ((stdNamesOf entries).contains (firstSeg pkg))
          { c with std := some (stdNamesOf entries) }, [])) ∧
    (∀ (c : WCore) (m : List String),
      c.std = some m → ensureStdLibMapping c = (.ok () c, [])) ∧
    (∀ (c : WCore) (m : List String) (pkg : String),
      c.std = some m → isStdLib pkg c = (.ok (stdOf m pkg) c, [])) := by
  refine ⟨?_, stdNamesOf_contains, ?_, ?_, ?_⟩
  · intro m pkg pkg' h
    unfold stdOf
    rw [h]
  · intro c entries pkg hstd hroot
    simp [isStdLib, WM.bind, ensureStdLibMapping, hstd, hroot, getCore, WM.pure, stdOf]
  · intro c m hstd
    simp [ensureStdLibMapping, hstd]
  · intro c m pkg hstd
    simp [isStdLib, WM.bind, ensureStdLibMapping, hstd, getCore, WM.pure]

/-- Claim C10 witness: the lazily-built classification applied at a concrete
environment — `fmt` is a directory (standard), `cmd` is excluded, `nondir`
is a file; `"fmt/sub/pkg"` is classified by its first segment only. -/
theorem c10_witness :
    isStdLib "fmt/sub/pkg" c10core =
      (.ok true { c10core with std := some ["fmt"] }, []) := by
  have h := c10_theorem.2.2.1 c10core [("fmt", true), ("cmd", true), ("nondir", false)]
    "fmt/sub/pkg" rfl rfl
  exact h.trans (by rfl)



/-- The writer state at the point where `composeHook` reaches
`composeHookCall` for a hook slot (inside `Compose`'s body at depth 2, with
`h1`/`h2` just declared and `dst = ` already emitted on the current line). -/
def composeDemoCore : WCore :=
  { atEOL := false, depth := 2, scopes := [⟨[⟨"h1", "part_000:348"⟩, ⟨"h2", "part_000:349"⟩]⟩],
    pkgPath := "pkg/self", pkgName := "self", globals := [], std := none, goroot := none }

set_option maxRecDepth 20000 in
/-- Claim C1 (corrected): the merged hook emitted by `composeHookCall`
installs a single `defer`red `recover` guard at the top of the whole body
(when the recovery callback is supplied) — the two calls are not guarded
independently.  A fault in either call is intercepted and forwarded to the
callback exactly once and never escapes, but the body is abandoned at the
faulting call: a fault in a's call prevents b's call from running (when a's
call returns normally, b's call does run, and a fault there is likewise
forwarded once).  The second conjunct exhibits the emitted body for a
parameterless hook with both sides set: one guard, textually before both
nil-guarded calls. -/
theorem c1_theorem :
    (∀ f1 f2 : Bool,
      mergedHookRun true (some f1) (some f2) =
        ⟨true, !f1, if f1 || f2 then 1 else 0, false⟩) ∧
    String.join (composeHookCall (.mk [] none) "h1" "h2" composeDemoCore).2 =
      "func() \x7b\n\t\t\tif options.panicCallback != nil \x7b\n\t\t\t\tdefer func() \x7b\n\t\t\t\t\tif e := recover(); e != nil \x7b\n\t\t\t\t\t\toptions.panicCallback(e)\n\t\t\t\t\t\x7d\n\t\t\t\t\x7d()\n\t\t\t\x7d\n\t\t\tif h1 != nil \x7b\n\t\t\t\th1()\n\t\t\t\x7d\n\t\t\tif h2 != nil \x7b\n\t\t\t\th2()\n\t\t\t\x7d\n\t\t\x7d\n" := by
  exact ⟨by decide, rfl⟩

/-- Claim C1 counterexample: with the recovery callback supplied and both
sides set, a fault in a's call is forwarded to the callback once, but the
sibling call does not execute (`ran2 = false`), contradicting "the sibling
call still executes". -/
theorem c1_counterexample :
    (mergedHookRun true (some true) (some false)).ran2 = false ∧
    (mergedHookRun true (some true) (some false)).cbCalls = 1 ∧
    (mergedHookRun true (some true) (some false)).escaped = false := by
  decide



/-! ### Running the emission primitives -/

theorem core_eta_atEOL_true {c : WCore} (h : c.atEOL = true) : { c with atEOL := true } = c := by
  cases c
  simp_all

theorem core_eta_atEOL_false {c : WCore} (h : c.atEOL = false) : { c with atEOL := false } = c := by
  cases c
  simp_all

theorem emitTabs_run (n : Nat) (c : WCore) : emitTabs n c = (.ok () c, List.replicate n "\t") := by
  induction n with
  | zero => rfl
  | succ k ih =>
      simp [emitTabs, WM.bind, emit, ih, List.replicate_succ]

theorem emitAll_run (args : List String) (c : WCore) : emitAll args c = (.ok () c, args) := by
  induction args with
  | nil => rfl
  | cons a rest ih =>
      simp [emitAll, WM.bind, emit, ih]

theorem code_run_true {c : WCore} (args : List String) (h : c.atEOL = true) :
    code args c = (.ok () { c with atEOL := false }, List.replicate c.depth "\t" ++ args) := by
  simp only [code, bind_eq, WM.bind, getCore, h, if_true, emitTabs_run, modifyCore,
    emitAll_run]
  rfl

theorem code_run_false {c : WCore} (args : List String) (h : c.atEOL = false) :
    code args c = (.ok () c, args) := by
  simp only [code, bind_eq, WM.bind, getCore, h, Bool.false_eq_true, if_false, pure_eq,
    WM.pure, emitAll_run]
  rfl

theorem line_run_true {c : WCore} (args : List String) (h : c.atEOL = true) :
    line args c = (.ok () c, List.replicate c.depth "\t" ++ args ++ ["\n"]) := by
  cases c
  simp_all [line, code, bind_eq, WM.bind, getCore, emitTabs_run, modifyCore, emitAll_run, emit]

theorem line_run_false {c : WCore} (args : List String) (h : c.atEOL = false) :
    line args c = (.ok () { c with atEOL := true }, args ++ ["\n"]) := by
  cases c
  simp_all [line, code, bind_eq, WM.bind, getCore, modifyCore, emitAll_run, emit, WM.pure, pure_eq]

/-! ### Claim C5: flattening and reconstruction -/

theorem flattenStruct_eq (fs : List (String × Bool × GoType)) :
    ∀ dst, flattenStruct dst fs =
      dst ++ (fs.filter fieldExported).map (fun f =>
        ⟨if fieldName f == typeBasename (fieldType f) then "" else fieldName f, fieldType f⟩) := by
  induction fs with
  | nil => intro dst; simp [flattenStruct]
  | cons f rest ih =>
      intro dst
      by_cases h : fieldExported f
      · simp [flattenStruct, h, ih, List.filter_cons]
      · simp [flattenStruct, h, ih, List.filter_cons]

theorem structAssigns_eq (fs : List (String × Bool × GoType)) :
    ∀ vars, ((fs.filter fieldExported).length ≤ vars.length) →
      structAssigns fs vars =
        some (((fs.filter fieldExported).map fieldName).zip vars,
          vars.drop (fs.filter fieldExported).length) := by
  induction fs with
  | nil => intro vars _; simp [structAssigns]
  | cons f rest ih =>
      intro vars hlen
      by_cases h : fieldExported f
      · cases vars with
        | nil =>
            exfalso
            simp [List.filter_cons, h] at hlen
        | cons v vs =>
            have hlen' : ((rest.filter fieldExported).length ≤ vs.length) := by
              simp [List.filter_cons, h] at hlen
              omega
            simp [structAssigns, h, ih vs hlen', List.filter_cons]
      · simp [structAssigns, h, ih vars (by simpa [List.filter_cons, h] using hlen),
          List.filter_cons]

theorem constructStructLoop_run (p : String) (fs : List (String × Bool × GoType)) :
    ∀ (vars : List String) (c : WCore) (asg : List (String × String)) (rest : List String),
      c.atEOL = true →
      structAssigns fs vars = some (asg, rest) →
      constructStructLoop p fs vars c =
        (.ok rest c,
          (asg.map (fun fv =>
            List.replicate c.depth "\t" ++ [p, ".", fv.1, " = ", fv.2, "\n"])).join) := by
  induction fs with
  | nil =>
      intro vars c asg rest hEOL hsa
      simp only [structAssigns, Option.some.injEq, Prod.mk.injEq] at hsa
      obtain ⟨h1, h2⟩ := hsa
      subst h1
      subst h2
      simp [constructStructLoop, WM.pure]
  | cons f fsr ih =>
      intro vars c asg rest hEOL hsa
      by_cases h : fieldExported f
      · cases vars with
        | nil => simp [structAssigns, h] at hsa
        | cons v vs =>
            simp only [structAssigns, h, if_true] at hsa
            rcases hr : structAssigns fsr vs with _ | ⟨asg', rest'⟩
            · rw [hr] at hsa; simp at hsa
            · rw [hr] at hsa
              simp only [Option.some.injEq, Prod.mk.injEq] at hsa
              obtain ⟨hasg, hrest⟩ := hsa
              simp only [constructStructLoop, h, if_true, bind_eq, WM.bind,
                line_run_true _ hEOL, ih vs c asg' rest' hEOL hr]
              subst hasg hrest
              simp

      · simp only [structAssigns, h, Bool.false_eq_true, if_false] at hsa
        simp only [constructStructLoop, h, Bool.false_eq_true, if_false]
        exact ih vars c asg rest hEOL hsa



/-- Claim C5 (confirmed): a struct-typed hook parameter is flattened into
one positional parameter per exported field (one level — the field types are
taken as-is, nested structs are not recursively flattened), and the emitted
reconstruction (`constructStruct`'s assignment loop) assigns the i-th
exported field the i-th positional argument, so the forwarder observes a
value equal to the struct built field-by-field from the arguments; for an
exported two-field struct `\x7bX, Y\x7d` with arguments `(x, y)` the observed
assignments are exactly `X = x, Y = y`. -/
theorem c5_theorem :
    (∀ (nm pp pn tn : String) (fs : List (String × Bool × GoType)),
      flattenParams [⟨nm, .named pp pn tn (some fs)⟩] =
        (fs.filter fieldExported).map (fun f =>
          ⟨if fieldName f == typeBasename (fieldType f) then "" else fieldName f,
            fieldType f⟩)) ∧
    (∀ (fs : List (String × Bool × GoType)) (vars : List String),
      ((fs.filter fieldExported).length ≤ vars.length) →
      structAssigns fs vars =
        some (((fs.filter fieldExported).map fieldName).zip vars,
          vars.drop (fs.filter fieldExported).length)) ∧
    (∀ (p : String) (fs : List (String × Bool × GoType)) (vars : List String)
      (c : WCore) (asg : List (String × String)) (rest : List String),
      c.atEOL = true →
      structAssigns fs vars = some (asg, rest) →
      constructStructLoop p fs vars c =
        (.ok rest c,
          (asg.map (fun fv =>
            List.replicate c.depth "\t" ++ [p, ".", fv.1, " = ", fv.2, "\n"])).join)) ∧
    (flattenParams [⟨"info", .named "pkg/a" "a" "T"
        (some [("X", true, .basic "int"), ("Y", true, .basic "string")])⟩] =
      [⟨"X", .basic "int"⟩, ⟨"Y", .basic "string"⟩]) ∧
    (structAssigns [("X", true, .basic "int"), ("Y", true, .basic "string")] ["x", "y"] =
      some ([("X", "x"), ("Y", "y")], [])) := by
  refine ⟨?_, structAssigns_eq, constructStructLoop_run, rfl, rfl⟩
  intro nm pp pn tn fs
  simp [flattenParams, flattenParamsGo, structFields, flattenStruct_eq]

/-- Claim C5 witness: the reconstruction part of `c5_theorem` applied to the
two-field struct at concrete arguments. -/
theorem c5_witness :
    constructStructLoop "p" [("X", true, GoType.basic "int"), ("Y", true, GoType.basic "string")]
        ["x", "y"] { coreScope1 with atEOL := true } =
      (.ok [] { coreScope1 with atEOL := true },
        ["p", ".", "X", " = ", "x", "\n", "p", ".", "Y", " = ", "y", "\n"]) := by
  have h := c5_theorem.2.2.1 "p"
    [("X", true, GoType.basic "int"), ("Y", true, GoType.basic "string")]
    ["x", "y"] { coreScope1 with atEOL := true } [("X", "x"), ("Y", "y")] [] rfl rfl
  exact h.trans (by rfl)



/-! ### Order facts about the byte-wise string comparison -/

theorem strLtCh_asymm : ∀ (l1 l2 : List Char), strLtCh l1 l2 = true → strLtCh l2 l1 = false := by
  intro l1
  induction l1 with
  | nil =>
      intro l2 h
      cases l2 with
      | nil => simpa [strLtCh] using h
      | cons b bs => simp [strLtCh]
  | cons a as1 ih =>
      intro l2 h
      cases l2 with
      | nil => simpa [strLtCh] using h
      | cons b bs =>
          by_cases hab : a = b
          · subst hab
            simp only [strLtCh, beq_self_eq_true, if_true] at h ⊢
            exact ih bs h
          · have h1 : (a == b) = false := by simpa using hab
            have h2 : (b == a) = false := by simpa using (Ne.symm hab)
            simp only [strLtCh, h1, h2, Bool.false_eq_true, if_false,
              decide_eq_true_eq] at h ⊢
            simp only [decide_eq_false_iff_not, not_lt]
            exact le_of_lt h
  
theorem strLtCh_conn : ∀ (l1 l2 : List Char),
    strLtCh l1 l2 = false → strLtCh l2 l1 = false → l1 = l2 := by
  intro l1
  induction l1 with
  | nil =>
      intro l2 h1 _
      cases l2 with
      | nil => rfl
      | cons b bs => simp [strLtCh] at h1
  | cons a as1 ih =>
      intro l2 h1 h2
      cases l2 with
      | nil => simp [strLtCh] at h2
      | cons b bs =>
          by_cases hab : a = b
          · subst hab
            simp only [strLtCh, beq_self_eq_true, if_true] at h1 h2
            rw [ih bs h1 h2]
          · have hb1 : (a == b) = false := by simpa using hab
            have hb2 : (b == a) = false := by simpa using (Ne.symm hab)
            simp only [strLtCh, hb1, hb2, Bool.false_eq_true, if_false,
              decide_eq_false_iff_not, not_lt] at h1 h2
            exact absurd (le_antisymm h1 h2) (Ne.symm hab)

theorem strLtCh_trans : ∀ (l1 l2 l3 : List Char),
    strLtCh l1 l2 = true → strLtCh l2 l3 = true → strLtCh l1 l3 = true := by
  intro l1
  induction l1 with
  | nil =>
      intro l2 l3 h1 h2
      cases l2 with
      | nil => simp [strLtCh] at h1
      | cons b bs =>
          cases l3 with
          | nil => simp [strLtCh] at h2
          | cons c cs => simp [strLtCh]
  | cons a as1 ih =>
      intro l2 l3 h1 h2
      cases l2 with
      | nil => simp [strLtCh] at h1
      | cons b bs =>
          cases l3 with
          | nil => simp [strLtCh] at h2
          | cons c cs =>
              by_cases hab : a = b
              · subst hab
                simp only [strLtCh, beq_self_eq_true, if_true] at h1
                by_cases hbc : a = c
                · subst hbc
                  simp only [strLtCh, beq_self_eq_true, if_true] at h2 ⊢
                  exact ih bs cs h1 h2
                · have hb : (a == c) = false := by simpa using hbc
                  simp only [strLtCh, hb, Bool.false_eq_true, if_false] at h2 ⊢
                  exact h2
              · have hb1 : (a == b) = false := by simpa using hab
                simp only [strLtCh, hb1, Bool.false_eq_true, if_false,
                  decide_eq_true_eq] at h1
                by_cases hbc : b = c
                · subst hbc
                  have hb2 : (a == b) = false := by simpa using hab
                  simp only [strLtCh, hb2, Bool.false_eq_true, if_false,
                    decide_eq_true_eq]
                  exact h1
                · have hb2 : (b == c) = false := by simpa using hbc
                  simp only [strLtCh, hb2, Bool.false_eq_true, if_false,
                    decide_eq_true_eq] at h2
                  have hac : a < c := lt_trans h1 h2
                  have hbac : (a == c) = false := by
                    simp only [beq_eq_false_iff_ne, ne_eq]
                    exact ne_of_lt hac
                  simp only [strLtCh, hbac, Bool.false_eq_true, if_false,
                    decide_eq_true_eq]
                  exact hac

theorem goStrLe_total (a b : String) : goStrLe a b = true ∨ goStrLe b a = true := by
  unfold goStrLe goStrLt
  by_cases h : strLtCh b.data a.data = true
  · right
    simp [strLtCh_asymm _ _ h]
  · left
    simp only [Bool.not_eq_true] at h
    simp [h]

theorem goStrLe_trans (a b c : String) :
    goStrLe a b = true → goStrLe b c = true → goStrLe a c = true := by
  unfold goStrLe goStrLt
  intro h1 h2
  simp only [Bool.not_eq_true'] at h1 h2 ⊢
  by_contra hcon
  simp only [Bool.not_eq_false] at hcon
  by_cases hbc : strLtCh b.data c.data = true
  · have := strLtCh_trans _ _ _ hbc hcon
    rw [this] at h1
    exact absurd h1 (by simp)
  · simp only [Bool.not_eq_true] at hbc
    have heq := strLtCh_conn _ _ hbc h2
    rw [← heq] at hcon
    rw [hcon] at h1
    exact absurd h1 (by simp)

theorem goStrLe_antisymm (a b : String) :
    goStrLe a b = true → goStrLe b a = true → a = b := by
  unfold goStrLe goStrLt
  intro h1 h2
  simp only [Bool.not_eq_true'] at h1 h2
  exact congrArg String.mk (strLtCh_conn _ _ h2 h1)



/-! ### Generic facts about `insertB`/`isortB` -/

theorem perm_insertB {α : Type} (le : α → α → Bool) (a : α) :
    ∀ l : List α, List.Perm (insertB le a l) (a :: l) := by
  intro l
  induction l with
  | nil => rfl
  | cons b t ih =>
      by_cases h : le a b
      · simp [insertB, h]
      · simp only [insertB, h, Bool.false_eq_true, if_false]
        exact (ih.cons b).trans (List.Perm.swap a b t)

theorem perm_isortB {α : Type} (le : α → α → Bool) :
    ∀ l : List α, List.Perm (isortB le l) l := by
  intro l
  induction l with
  | nil => rfl
  | cons b t ih =>
      exact (perm_insertB le b (isortB le t)).trans (ih.cons b)

theorem pairwise_insertB {α : Type} (le : α → α → Bool)
    (htot : ∀ a b, le a b = true ∨ le b a = true)
    (htrans : ∀ a b c, le a b = true → le b c = true → le a c = true)
    (a : α) : ∀ l : List α, l.Pairwise (fun x y => le x y = true) →
      (insertB le a l).Pairwise (fun x y => le x y = true) := by
  intro l
  induction l with
  | nil => intro _; simp [insertB]
  | cons b t ih =>
      intro hp
      rcases List.pairwise_cons.mp hp with ⟨hb, ht⟩
      by_cases h : le a b
      · simp only [insertB, h, if_true]
        refine List.pairwise_cons.mpr ⟨?_, hp⟩
        intro x hx
        rcases List.mem_cons.mp hx with rfl | hx
        · exact h
        · exact htrans a b x h (hb x hx)
      · simp only [insertB, h, Bool.false_eq_true, if_false]
        refine List.pairwise_cons.mpr ⟨?_, ih ht⟩
        intro x hx
        have hx' : x = a ∨ x ∈ t := by
          have := (perm_insertB le a t).mem_iff.mp hx
          simpa using this
        rcases hx' with hxa | hx'
        · subst hxa
          rcases htot x b with h1 | h1
          · exact absurd h1 h
          · exact h1
        · exact hb x hx'

theorem pairwise_isortB {α : Type} (le : α → α → Bool)
    (htot : ∀ a b, le a b = true ∨ le b a = true)
    (htrans : ∀ a b c, le a b = true → le b c = true → le a c = true) :
    ∀ l : List α, (isortB le l).Pairwise (fun x y => le x y = true) := by
  intro l
  induction l with
  | nil => simp [isortB]
  | cons a t ih => exact pairwise_insertB le htot htrans a _ ih

/-- Two sorted permutations of the same list agree, provided `le` is
antisymmetric up to a key that is duplicate-free in the list. -/
theorem sorted_perm_eq {α K : Type} (le : α → α → Bool) (k : α → K)
    (hanti : ∀ a b, le a b = true → le b a = true → k a = k b) :
    ∀ (l1 l2 : List α), List.Perm l1 l2 → l1.Pairwise (fun x y => le x y = true) →
      l2.Pairwise (fun x y => le x y = true) → (l1.map k).Nodup → l1 = l2 := by
  intro l1
  induction l1 with
  | nil =>
      intro l2 hp _ _ _
      exact (hp.nil_eq).symm ▸ rfl
  | cons a t1 ih =>
      intro l2 hp h1 h2 hnd
      cases l2 with
      | nil => exact absurd hp.symm.nil_eq (by simp)
      | cons b t2 =>
          have hab : a = b := by
            by_contra hne
            have ha2 : a ∈ b :: t2 := hp.mem_iff.mp (List.mem_cons_self a t1)
            have hb1 : b ∈ a :: t1 := hp.symm.mem_iff.mp (List.mem_cons_self b t2)
            have ha2' : a ∈ t2 := by
              rcases List.mem_cons.mp ha2 with h | h
              · exact absurd h hne
              · exact h
            have hb1' : b ∈ t1 := by
              rcases List.mem_cons.mp hb1 with h | h
              · exact absurd h.symm hne
              · exact h
            have hle1 : le a b = true := (List.pairwise_cons.mp h1).1 b hb1'
            have hle2 : le b a = true := (List.pairwise_cons.mp h2).1 a ha2'
            have hk : k a = k b := hanti a b hle1 hle2
            have : k b ∈ t1.map k := List.mem_map_of_mem k hb1'
            rw [← hk] at this
            exact (List.nodup_cons.mp (by simpa using hnd)).1 this
          subst hab
          have htp : List.Perm t1 t2 := hp.cons_inv
          have := ih t2 htp (List.pairwise_cons.mp h1).2 (List.pairwise_cons.mp h2).2
            (List.nodup_cons.mp (by simpa using hnd)).2
          rw [this]



/-! ### The import comparator -/

/-- The reflected non-strict relation of the comparator: `sort.Slice` sorts
so that adjacent pairs satisfy `¬ less(b, a)`. -/
def depLe (std : String → Bool) (a b : Dep) : Bool := !(depLess std b a)

theorem goSortSlice_eq (std : String → Bool) (l : List Dep) :
    goSortSlice (depLess std) l = isortB (depLe std) l := rfl

/-- Group rank of the comparator: standard-library first. -/
def depRank (std : String → Bool) (d : Dep) : Nat := if std d.pkgPath then 0 else 1

theorem depLe_iff (std : String → Bool) (a b : Dep) :
    depLe std a b = true ↔
      (depRank std a < depRank std b ∨
        (depRank std a = depRank std b ∧ goStrLe a.pkgPath b.pkgPath = true)) := by
  unfold depLe depLess depRank goStrLe
  by_cases ha : std a.pkgPath
  · by_cases hb : std b.pkgPath
    · simp [ha, hb]
    · simp [ha, hb]
  · by_cases hb : std b.pkgPath
    · simp [ha, hb]
    · simp [ha, hb]

theorem depLe_total (std : String → Bool) (a b : Dep) :
    depLe std a b = true ∨ depLe std b a = true := by
  rw [depLe_iff, depLe_iff]
  rcases goStrLe_total a.pkgPath b.pkgPath with h | h
  · rcases Nat.lt_trichotomy (depRank std a) (depRank std b) with h1 | h1 | h1
    · exact Or.inl (Or.inl h1)
    · exact Or.inl (Or.inr ⟨h1, h⟩)
    · exact Or.inr (Or.inl h1)
  · rcases Nat.lt_trichotomy (depRank std a) (depRank std b) with h1 | h1 | h1
    · exact Or.inl (Or.inl h1)
    · exact Or.inr (Or.inr ⟨h1.symm, h⟩)
    · exact Or.inr (Or.inl h1)

theorem depLe_trans (std : String → Bool) (a b c : Dep) :
    depLe std a b = true → depLe std b c = true → depLe std a c = true := by
  rw [depLe_iff, depLe_iff, depLe_iff]
  rintro (h1 | ⟨h1, h1'⟩) (h2 | ⟨h2, h2'⟩)
  · exact Or.inl (h1.trans h2)
  · exact Or.inl (h2 ▸ h1)
  · exact Or.inl (h1 ▸ h2)
  · exact Or.inr ⟨h1.trans h2, goStrLe_trans _ _ _ h1' h2'⟩

theorem depLe_anti (std : String → Bool) (a b : Dep) :
    depLe std a b = true → depLe std b a = true → a.pkgPath = b.pkgPath := by
  rw [depLe_iff, depLe_iff]
  rintro (h1 | ⟨h1, h1'⟩) (h2 | ⟨h2, h2'⟩)
  · omega
  · omega
  · omega
  · exact goStrLe_antisymm _ _ h1' h2'

/-! ### The deduplication loop -/

theorem dedupGo_nil (seen : List String) (kept : List Dep) :
    dedupGo seen kept [] = kept := by
  simp [dedupGo]

theorem dedupGo_dup_nil (seen : List String) (kept : List Dep) (d : Dep)
    (h : d.pkgPath ∈ seen) : dedupGo seen kept [d] = kept := by
  rw [dedupGo]
  simp [h]

theorem dedupGo_dup (seen : List String) (kept : List Dep) (d : Dep) (ds : List Dep)
    (h : d.pkgPath ∈ seen) (hds : ds ≠ []) :
    dedupGo seen kept (d :: ds) = dedupGo seen kept (ds.getLast hds :: ds.dropLast) := by
  rw [dedupGo]
  simp [h, hds]

theorem dedupGo_keep (seen : List String) (kept : List Dep) (d : Dep) (ds : List Dep)
    (h : d.pkgPath ∉ seen) :
    dedupGo seen kept (d :: ds) = dedupGo (seen ++ [d.pkgPath]) (kept ++ [d]) ds := by
  rw [dedupGo]
  simp [h]

theorem dedupGo_spec (seen : List String) (kept rest : List Dep) :
    (kept.map Dep.pkgPath).Nodup →
    (∀ p, p ∈ seen ↔ p ∈ kept.map Dep.pkgPath) →
    ((dedupGo seen kept rest).map Dep.pkgPath).Nodup ∧
    (∀ p, p ∈ (dedupGo seen kept rest).map Dep.pkgPath ↔
      (p ∈ kept.map Dep.pkgPath ∨ (p ∈ rest.map Dep.pkgPath ∧ p ∉ seen))) := by
  induction seen, kept, rest using dedupGo.induct with
  | case1 seen kept =>
      intro hnd hseen
      rw [dedupGo_nil]
      refine ⟨hnd, fun p => ?_⟩
      simp
  | case2 seen kept d hdup =>
      intro hnd hseen
      have hdmem : d.pkgPath ∈ seen := by simpa using hdup
      rw [dedupGo_dup_nil seen kept d hdmem]
      refine ⟨hnd, fun p => ?_⟩
      constructor
      · intro h; exact Or.inl h
      · rintro (h | ⟨h, hns⟩)
        · exact h
        · exfalso
          have : p = d.pkgPath := by simpa using h
          exact hns (this ▸ hdmem)
  | case3 seen kept d ds hdup hds ih =>
      intro hnd hseen
      have hdmem : d.pkgPath ∈ seen := by simpa using hdup
      rw [dedupGo_dup seen kept d ds hdmem hds]
      obtain ⟨h1, h2⟩ := ih hnd hseen
      refine ⟨h1, fun p => ?_⟩
      rw [h2 p]
      have hperm : List.Perm (ds.getLast hds :: ds.dropLast) ds := by
        conv_rhs => rw [← List.dropLast_append_getLast hds]
        exact (List.perm_append_singleton _ _).symm
      have hmem : p ∈ (ds.getLast hds :: ds.dropLast).map Dep.pkgPath ↔ p ∈ ds.map Dep.pkgPath :=
        (hperm.map Dep.pkgPath).mem_iff
      rw [hmem]
      constructor
      · rintro (h | ⟨h, hns⟩)
        · exact Or.inl h
        · exact Or.inr ⟨by simp [h], hns⟩
      · rintro (h | ⟨h, hns⟩)
        · exact Or.inl h
        · have h' : p = d.pkgPath ∨ p ∈ ds.map Dep.pkgPath := by simpa using h
          rcases h' with rfl | h'
          · exact absurd hdmem hns
          · exact Or.inr ⟨h', hns⟩
  | case4 seen kept d ds hdup ih =>
      intro hnd hseen
      have hdnot : d.pkgPath ∉ seen := by simpa using hdup
      have hdnotk : d.pkgPath ∉ kept.map Dep.pkgPath := fun h => hdnot ((hseen _).mpr h)
      rw [dedupGo_keep seen kept d ds hdnot]
      have hnd' : ((kept ++ [d]).map Dep.pkgPath).Nodup := by
        rw [List.map_append]
        simp [List.nodup_append, hnd, hdnotk]
      have hseen' : ∀ p, p ∈ seen ++ [d.pkgPath] ↔ p ∈ (kept ++ [d]).map Dep.pkgPath := by
        intro p
        rw [List.map_append]
        simp [hseen p]
      obtain ⟨h1, h2⟩ := ih hnd' hseen'
      refine ⟨h1, fun p => ?_⟩
      rw [h2 p]
      rw [List.map_append]
      by_cases hpd : p = d.pkgPath
      · subst hpd
        simp [hdnot]
      · constructor
        · rintro (h | ⟨h, hns⟩)
          · rcases List.mem_append.mp h with h | h
            · exact Or.inl h
            · simp at h
              exact absurd h hpd
          · refine Or.inr ⟨by simp [h], fun hc => hns (by simp [hc])⟩
        · rintro (h | ⟨h, hns⟩)
          · exact Or.inl (List.mem_append.mpr (Or.inl h))
          · have h' : p = d.pkgPath ∨ p ∈ ds.map Dep.pkgPath := by simpa using h
            rcases h' with h' | h'
            · exact absurd h' hpd
            · refine Or.inr ⟨h', fun hc => ?_⟩
              rcases List.mem_append.mp hc with hc | hc
              · exact hns hc
              · simp at hc
                exact hpd hc

theorem dedupDeps_spec (deps : List Dep) :
    ((dedupDeps deps).map Dep.pkgPath).Nodup ∧
    (∀ p, p ∈ (dedupDeps deps).map Dep.pkgPath ↔ p ∈ deps.map Dep.pkgPath) := by
  obtain ⟨h1, h2⟩ := dedupGo_spec [] [] deps (by simp) (by simp)
  unfold dedupDeps
  refine ⟨h1, fun p => ?_⟩
  rw [h2 p]
  simp



/-! ### Claim C4: the import block -/

/-- Lexicographic-by-path comparison (the spec's per-group order). -/
def pathLe (a b : Dep) : Bool := goStrLe a.pkgPath b.pkgPath

/-- From the spec's words (the refinement target for C4): the deduplicated
dependencies, standard-library entries first in lexicographic order by path,
then the external entries in lexicographic order by path. -/
def specImportOrder (stdm : List String) (deps : List Dep) : List Dep :=
  isortB pathLe ((dedupDeps deps).filter (fun d => stdOf stdm d.pkgPath)) ++
    isortB pathLe ((dedupDeps deps).filter (fun d => !(stdOf stdm d.pkgPath)))

theorem pathLe_total (a b : Dep) : pathLe a b = true ∨ pathLe b a = true :=
  goStrLe_total a.pkgPath b.pkgPath

theorem pathLe_trans (a b c : Dep) :
    pathLe a b = true → pathLe b c = true → pathLe a c = true :=
  goStrLe_trans a.pkgPath b.pkgPath c.pkgPath

theorem specImportOrder_perm (stdm : List String) (deps : List Dep) :
    List.Perm (specImportOrder stdm deps) (dedupDeps deps) := by
  unfold specImportOrder
  exact ((perm_isortB _ _).append (perm_isortB _ _)).trans
    (List.filter_append_perm _ _)

theorem specImportOrder_sorted (stdm : List String) (deps : List Dep) :
    (specImportOrder stdm deps).Pairwise (fun x y => depLe (stdOf stdm) x y = true) := by
  unfold specImportOrder
  rw [List.pairwise_append]
  have memStd : ∀ x ∈ isortB pathLe ((dedupDeps deps).filter (fun d => stdOf stdm d.pkgPath)),
      stdOf stdm x.pkgPath = true := by
    intro x hx
    have hmem : x ∈ (dedupDeps deps).filter (fun d => stdOf stdm d.pkgPath) :=
      (perm_isortB _ _).mem_iff.mp hx
    exact (List.mem_filter.mp hmem).2
  have memExt : ∀ x ∈ isortB pathLe ((dedupDeps deps).filter (fun d => !(stdOf stdm d.pkgPath))),
      stdOf stdm x.pkgPath = false := by
    intro x hx
    have hmem : x ∈ (dedupDeps deps).filter (fun d => !(stdOf stdm d.pkgPath)) :=
      (perm_isortB _ _).mem_iff.mp hx
    have := (List.mem_filter.mp hmem).2
    simpa using this
  refine ⟨?_, ?_, ?_⟩
  · refine (pairwise_isortB pathLe pathLe_total pathLe_trans _).imp_of_mem ?_
    intro a b ha hb hr
    rw [depLe_iff]
    refine Or.inr ⟨?_, ?_⟩
    · simp [depRank, memStd a ha, memStd b hb]
    · unfold pathLe at hr
      exact hr
  · refine (pairwise_isortB pathLe pathLe_total pathLe_trans _).imp_of_mem ?_
    intro a b ha hb hr
    rw [depLe_iff]
    refine Or.inr ⟨?_, ?_⟩
    · simp [depRank, memExt a ha, memExt b hb]
    · unfold pathLe at hr
      exact hr
  · intro a ha b hb
    rw [depLe_iff]
    refine Or.inl ?_
    simp [depRank, memStd a ha, memExt b hb]

theorem sortedImportDeps_eq_spec (stdm : List String) (deps : List Dep) :
    sortedImportDeps goSortSlice stdm deps = specImportOrder stdm deps := by
  unfold sortedImportDeps
  rw [goSortSlice_eq]
  refine sorted_perm_eq (depLe (stdOf stdm)) Dep.pkgPath (depLe_anti _) _ _
    ((perm_isortB _ _).trans (specImportOrder_perm stdm deps).symm)
    (pairwise_isortB _ (depLe_total _) (depLe_trans _) _)
    (specImportOrder_sorted stdm deps) ?_
  have h1 := (perm_isortB (depLe (stdOf stdm)) (dedupDeps deps)).map Dep.pkgPath
  exact h1.nodup_iff.mpr (dedupDeps_spec deps).1

/-- The writer state at the point `Writer.importDeps` runs for the claim's
example (after the package clause, at column 0). -/
def c4core : WCore :=
  { atEOL := true, depth := 0, scopes := [], pkgPath := "pkg/self",
    pkgName := "self", globals := [], std := none, goroot := some [("stdA", true)] }

/-- The claim's example dependencies: `pkgB`, `stdA`, `pkgA` referenced in
that order, with `stdA` classified standard. -/
def c4deps : List Dep := [⟨"pkgB", "pkgB", "T1"⟩, ⟨"stdA", "stdA", "T2"⟩, ⟨"pkgA", "pkgA", "T3"⟩]

set_option maxRecDepth 20000 in
unseal dedupGo in
/-- Claim C4 (confirmed): the emitted import block lists each referenced
module path exactly once (the emitted list is duplicate-free and carries
exactly the referenced paths), ordered with the standard-library group first
in lexicographic order by path, then the external group in lexicographic
order by path (`sortedImportDeps` coincides with the order written down in
the spec, `specImportOrder`); on the example `{pkgB, stdA, pkgA}` with
`stdA` standard, `importDeps` emits `stdA`, one blank separator line, then
`pkgA`, `pkgB`. -/
theorem c4_theorem :
    (∀ (stdm : List String) (deps : List Dep),
      sortedImportDeps goSortSlice stdm deps = specImportOrder stdm deps) ∧
    (∀ (stdm : List String) (deps : List Dep),
      ((sortedImportDeps goSortSlice stdm deps).map Dep.pkgPath).Nodup ∧
      (∀ p, p ∈ (sortedImportDeps goSortSlice stdm deps).map Dep.pkgPath ↔
        p ∈ deps.map Dep.pkgPath)) ∧
    (importDeps (sortedImportDeps goSortSlice) c4deps c4core).2 =
      ["import (", "\n", "\t", "\"", "stdA", "\"", "\n", "\n",
       "\t", "\"", "pkgA", "\"", "\n", "\t", "\"", "pkgB", "\"", "\n", ")", "\n", "\n"] ∧
    resVal (importDeps (sortedImportDeps goSortSlice) c4deps c4core).1 = some () := by
  refine ⟨sortedImportDeps_eq_spec, ?_, by rfl, by rfl⟩
  intro stdm deps
  have hperm := (perm_isortB (depLe (stdOf stdm)) (dedupDeps deps)).map Dep.pkgPath
  have hdd := dedupDeps_spec deps
  constructor
  · rw [show sortedImportDeps goSortSlice stdm deps =
      isortB (depLe (stdOf stdm)) (dedupDeps deps) from rfl]
    exact hperm.nodup_iff.mpr hdd.1
  · intro p
    rw [show sortedImportDeps goSortSlice stdm deps =
      isortB (depLe (stdOf stdm)) (dedupDeps deps) from rfl]
    rw [hperm.mem_iff]
    exact hdd.2 p



/-! ### Claim C7: determinism of generation -/

/-- The contract `sort.Slice` gives its caller: the result is a permutation,
and — when the comparator is asymmetric and negatively transitive (a strict
weak order, which `depLess` is) — the result is sorted (no inversions).
Nothing else about the algorithm is specified. -/
def SorterOK (σ : SortImpl) : Prop :=
  ∀ (less : Dep → Dep → Bool) (l : List Dep),
    List.Perm (σ less l) l ∧
    ((∀ a b, less a b = true → less b a = false) →
     (∀ a b c, less b a = false → less c b = false → less c a = false) →
     (σ less l).Pairwise (fun a b => less b a = false))

theorem goSortSlice_sorterOK : SorterOK goSortSlice := by
  intro less l
  refine ⟨perm_isortB _ _, fun hasym hneg => ?_⟩
  have htot : ∀ a b, (!(less b a)) = true ∨ (!(less a b)) = true := by
    intro a b
    by_cases h : less b a = true
    · right
      simp [hasym b a h]
    · left
      simp only [Bool.not_eq_true] at h
      simp [h]
  have htrans : ∀ a b c, (!(less b a)) = true → (!(less c b)) = true → (!(less c a)) = true := by
    intro a b c h1 h2
    simp only [Bool.not_eq_true'] at h1 h2 ⊢
    exact hneg a b c h1 h2
  have := pairwise_isortB (fun a b => !(less b a)) htot htrans l
  exact this.imp (fun h => by simpa using h)

/-- A second, deliberately different model of `sort.Slice`: insertion sort
of the reversed input (same contract, different comparison order and
different tie behaviour). -/
def goSortSliceRev : SortImpl := fun less l => isortB (fun a b => !(less b a)) l.reverse

theorem goSortSliceRev_sorterOK : SorterOK goSortSliceRev := by
  intro less l
  refine ⟨(perm_isortB _ _).trans l.reverse_perm, fun hasym hneg => ?_⟩
  have htot : ∀ a b, (!(less b a)) = true ∨ (!(less a b)) = true := by
    intro a b
    by_cases h : less b a = true
    · right
      simp [hasym b a h]
    · left
      simp only [Bool.not_eq_true] at h
      simp [h]
  have htrans : ∀ a b c, (!(less b a)) = true → (!(less c b)) = true → (!(less c a)) = true := by
    intro a b c h1 h2
    simp only [Bool.not_eq_true'] at h1 h2 ⊢
    exact hneg a b c h1 h2
  have := pairwise_isortB (fun a b => !(less b a)) htot htrans l.reverse
  exact this.imp (fun h => by simpa using h)

theorem depLess_asym (std : String → Bool) (a b : Dep) :
    depLess std a b = true → depLess std b a = false := by
  intro h
  by_contra hc
  simp only [Bool.not_eq_false] at hc
  have h1 : depLe std a b = false := by simp [depLe, hc]
  have h2 : depLe std b a = false := by simp [depLe, h]
  rcases depLe_total std a b with ht | ht
  · rw [ht] at h1; exact absurd h1 (by simp)
  · rw [ht] at h2; exact absurd h2 (by simp)

theorem depLess_negtrans (std : String → Bool) (a b c : Dep) :
    depLess std b a = false → depLess std c b = false → depLess std c a = false := by
  intro h1 h2
  have h1' : depLe std a b = true := by simp [depLe, h1]
  have h2' : depLe std b c = true := by simp [depLe, h2]
  have := depLe_trans std a b c h1' h2'
  simpa [depLe] using this

/-- Claim C7 (confirmed): generation is a deterministic function of the
model and environment.  The embedding is a function except at the single
point the source leaves unspecified — the algorithm behind `sort.Slice`
(an unstable sort; the source uses no map iteration).  For any two
implementations satisfying `sort.Slice`'s contract, a full `Writer.Write`
run produces identical outcomes and byte-identical output chunks, because
the comparator is a strict weak order and the deduplicated input has
duplicate-free keys, making the sorted permutation unique. -/
theorem c7_theorem (σ1 σ2 : SortImpl) (h1 : SorterOK σ1) (h2 : SorterOK σ2)
    (p : Package) (env : Option (List (String × Bool))) :
    writeProgAux (sortedImportDeps σ1) p (initCore p env) =
      writeProgAux (sortedImportDeps σ2) p (initCore p env) := by
  have key : sortedImportDeps σ1 = sortedImportDeps σ2 := by
    funext stdm deps
    unfold sortedImportDeps
    obtain ⟨hp1, hs1⟩ := h1 (depLess (stdOf stdm)) (dedupDeps deps)
    obtain ⟨hp2, hs2⟩ := h2 (depLess (stdOf stdm)) (dedupDeps deps)
    have hs1' := hs1 (depLess_asym _) (depLess_negtrans _)
    have hs2' := hs2 (depLess_asym _) (depLess_negtrans _)
    refine sorted_perm_eq (depLe (stdOf stdm)) Dep.pkgPath (depLe_anti _) _ _
      (hp1.trans hp2.symm)
      (hs1'.imp (fun h => by simpa [depLe] using h))
      (hs2'.imp (fun h => by simpa [depLe] using h)) ?_
    exact ((hp1.map Dep.pkgPath).nodup_iff).mpr (dedupDeps_spec deps).1
  rw [key]

/-- A small model for the C7 witness. -/
def c7pkg : Package :=
  ⟨"mypkg/path", "mypkg", [], [],
    [⟨"Driver", false, [⟨"OnTest", .mk [⟨"d", .named "x/y" "y" "Info" none⟩] none⟩]⟩]⟩

/-- Claim C7 witness: `c7_theorem` applied to two concrete, different
sorting algorithms on a concrete model. -/
theorem c7_witness :
    writeProgAux (sortedImportDeps goSortSlice) c7pkg (initCore c7pkg (some [("fmt", true)])) =
      writeProgAux (sortedImportDeps goSortSliceRev) c7pkg (initCore c7pkg (some [("fmt", true)])) :=
  c7_theorem goSortSlice goSortSliceRev goSortSlice_sorterOK goSortSliceRev_sorterOK
    c7pkg (some [("fmt", true)])



/-! ### Claim C3: buffering and atomicity -/

/-- Total byte length of a chunk list. -/
def totalLen (l : List String) : Nat := (l.map String.length).sum

/-- Whether an outcome is a panic. -/
def isPanicked {α : Type} : WRes α → Bool
  | .panicked _ _ => true
  | .ok _ _ => false

theorem bwrite_partition (b : BufSt) (s : String) :
    (bwrite b s).sink ++ (bwrite b s).buf = b.sink ++ b.buf ++ [s] := by
  unfold bwrite
  by_cases h1 : b.bufLen + s.length ≤ writerBufCap
  · simp [h1]
  · by_cases h2 : s.length ≤ writerBufCap
    · simp [h1, h2]
    · simp [h1, h2]

theorem bwriteAll_partition :
    ∀ (l : List String) (b : BufSt),
      (bwriteAll b l).sink ++ (bwriteAll b l).buf = b.sink ++ b.buf ++ l := by
  intro l
  induction l with
  | nil => intro b; simp [bwriteAll]
  | cons s rest ih =>
      intro b
      rw [show bwriteAll b (s :: rest) = bwriteAll (bwrite b s) rest from rfl, ih,
        bwrite_partition]
      simp

theorem bwriteAll_small :
    ∀ (l : List String) (b : BufSt), b.sink = [] →
      b.bufLen + totalLen l ≤ writerBufCap → (bwriteAll b l).sink = [] := by
  intro l
  induction l with
  | nil => intro b hs _; simpa [bwriteAll] using hs
  | cons s rest ih =>
      intro b hs hlen
      have hsl : s.length + totalLen rest = totalLen (s :: rest) := by
        simp [totalLen]
      have hfit : b.bufLen + s.length ≤ writerBufCap := by
        simp [totalLen] at hlen
        omega
      rw [show bwriteAll b (s :: rest) = bwriteAll (bwrite b s) rest from rfl]
      refine ih (bwrite b s) ?_ ?_
      · unfold bwrite
        simp [hfit, hs]
      · unfold bwrite
        simp only [hfit, if_true]
        simp [totalLen] at hlen ⊢
        omega

/-- Claim C3 (corrected): the generated text goes through a fixed-capacity
(4096-byte) `bufio` buffer.  On successful completion the final `Flush`
delivers everything, so the sink holds exactly the generated chunks; a run
that panics leaves nothing in the sink provided the text generated before
the failure fits within the buffer capacity — beyond the capacity, text has
already been flushed during the run (see the counterexample). -/
theorem c3_theorem :
    (∀ (p : Package) (env : Option (List (String × Bool))) (msg : String) (c : WCore),
      (writeRun p env).1 = .panicked msg c →
      totalLen (writeRun p env).2 ≤ writerBufCap →
      writeSink p env = []) ∧
    (∀ (p : Package) (env : Option (List (String × Bool))) (c : WCore),
      (writeRun p env).1 = .ok () c →
      writeSink p env = (writeRun p env).2) := by
  constructor
  · intro p env msg c hp htot
    unfold writeSink
    rcases hw : writeRun p env with ⟨r, out⟩
    rw [hw] at hp htot
    simp only at hp
    subst hp
    simp only
    exact bwriteAll_small out bufInit rfl (by simpa [bufInit] using htot)
  · intro p env c hp
    unfold writeSink
    rcases hw : writeRun p env with ⟨r, out⟩
    rw [hw] at hp
    simp only at hp
    subst hp
    simp only [bflush]
    have := bwriteAll_partition out bufInit
    simpa [bufInit] using this

/-- A build-constraint line of 862 bytes (generated text far beyond the
4096-byte buffer once repeated). -/
def bigLine : String := "//" ++ String.mk (List.replicate 860 'x')

/-- A model whose run emits more than the buffer capacity before failing
fatally (the import classification panics: `GOROOT/src` is unreadable). -/
def c3pkg : Package :=
  ⟨"mypkg/path", "mypkg", [], [bigLine, bigLine, bigLine, bigLine, bigLine],
    [⟨"Driver", false, [⟨"OnTest", .mk [⟨"d", .named "foo/bar" "bar" "Info" none⟩] none⟩]⟩]⟩

/-- A model whose run fails the same way having emitted only 58 bytes. -/
def c3small : Package :=
  ⟨"mypkg/path", "mypkg", [], [],
    [⟨"Driver", false, [⟨"OnTest", .mk [⟨"d", .named "foo/bar" "bar" "Info" none⟩] none⟩]⟩]⟩

set_option maxRecDepth 200000 in
unseal dedupGo in
/-- Claim C3 counterexample: a run that fails fatally before completion
(4374 bytes generated, then a panic at import classification) leaves a
non-empty partial artifact in the Output sink — the claim's "no partial
output regardless of how much text was generated" is false. -/
theorem c3_counterexample :
    isPanicked (writeRun c3pkg none).1 = true ∧
    totalLen (writeRun c3pkg none).2 > writerBufCap ∧
    writeSink c3pkg none ≠ [] := by
  refine ⟨by rfl, by decide, by decide⟩

set_option maxRecDepth 200000 in
unseal dedupGo in
/-- Claim C3 witness: the amended no-flush bound of `c3_theorem` applied to
a concrete failing run that stayed within the buffer capacity. -/
theorem c3_witness : writeSink c3small none = [] := by
  refine c3_theorem.1 c3small none "can't list GOROOT's src: I/O error"
    { atEOL := true, depth := 0, scopes := [], pkgPath := "mypkg/path",
      pkgName := "mypkg", globals := [], std := none, goroot := none }
    (by rfl) (by decide)


end Gtrace

namespace Gtrace

/-! ### Claim C6: the layout of `Writer.Write`'s output -/

/-- `SeqOut segs c c2 out`: running the programs of `segs` in order from `c`
takes each step through a normal return, ends in `c2`, and the emitted
chunks are exactly the concatenation of the steps' chunks in order. -/
def SeqOut : List (WM Unit) → WCore → WCore → List String → Prop
  | [], c, c2, out => c2 = c ∧ out = []
  | m :: ms, c, c2, out =>
      ∃ c1 o1 o2, m c = (.ok () c1, o1) ∧ SeqOut ms c1 c2 o2 ∧ out = o1 ++ o2

theorem seqOut_cons {m : WM Unit} {ms : List (WM Unit)} {c c1 c2 : WCore}
    {o1 o2 : List String} (hm : m c = (.ok () c1, o1)) (hms : SeqOut ms c1 c2 o2) :
    SeqOut (m :: ms) c c2 (o1 ++ o2) :=
  ⟨c1, o1, o2, hm, hms, rfl⟩

theorem seqOut_nil (c : WCore) : SeqOut [] c c [] := ⟨rfl, rfl⟩

theorem seqOut_append :
    ∀ {ms : List (WM Unit)} {ns : List (WM Unit)} {c c1 c2 : WCore} {o1 o2 : List String},
      SeqOut ms c c1 o1 → SeqOut ns c1 c2 o2 → SeqOut (ms ++ ns) c c2 (o1 ++ o2) := by
  intro ms
  induction ms with
  | nil =>
      intro ns c c1 c2 o1 o2 h1 h2
      obtain ⟨hc, ho⟩ := h1
      subst hc
      subst ho
      simpa using h2
  | cons m ms ih =>
      intro ns c c1 c2 o1 o2 h1 h2
      obtain ⟨cm, om, orest, hm, hrest, hout⟩ := h1
      subst hout
      rw [List.cons_append, List.append_assoc]
      exact seqOut_cons hm (ih hrest h2)

/-- `WM.bind` on a `pure` head runs the continuation directly. -/
theorem bind_pure_run {α β : Type} (a : α) (k : α → WM β) (c : WCore) :
    WM.bind (WM.pure a) k c = k a c := by
  unfold WM.bind WM.pure
  rcases hk : k a c with ⟨r, o⟩
  simp [hk]

/-- Split a successful unit-valued bind into its two successful halves. -/
theorem bindU_ok_split {m : WM Unit} {k : Unit → WM Unit} {c c2 : WCore}
    {out : List String} (h : WM.bind m k c = (.ok () c2, out)) :
    ∃ c1 o1 o2, m c = (.ok () c1, o1) ∧ k () c1 = (.ok () c2, o2) ∧ out = o1 ++ o2 := by
  unfold WM.bind at h
  rcases hm : m c with ⟨r, o⟩
  rw [hm] at h
  cases r with
  | panicked msg cp => simp at h
  | ok a c1 =>
      cases a
      dsimp only at h
      rcases hk : k () c1 with ⟨r2, o2⟩
      rw [hk] at h
      simp only [Prod.mk.injEq] at h
      obtain ⟨h1, h2⟩ := h
      subst h1
      refine ⟨c1, o, o2, ?_, ?_, h2.symm⟩ <;> first | rfl | exact hm | exact hk

/-- The emitter segments of the build-constraint block: a leading blank
line before the first constraint, then one line per constraint. -/
def constraintSegs : List String → List (WM Unit)
  | [] => []
  | s :: rest => [line [], line [s]] ++ rest.map (fun s => line [s])

/-- The segment list of `Writer.Write`, in the emitted order: the
generated-file marker, the preserved build constraints (with their leading
blank line), the package clause, the import block, then — inside the single
outermost scope — per trace the options type with its setter, `Compose`,
`isZero` exactly when the trace is nested, and one forwarder per hook,
followed by all shortcut functions across all traces in trace-then-hook
order. -/
def writeSegs (sd : List String → List Dep → List Dep) (p : Package) : List (WM Unit) :=
  [line [genMarker]] ++
  constraintSegs p.buildConstraints ++
  [line [], line ["package ", p.pkgName], line [],
    importDeps sd (collectDeps p.pkgPath [] p.traces), pushScope] ++
  (p.traces.map (fun t =>
    [options t, compose t] ++ (if t.nested then [isZero t] else []) ++
      t.hooks.map (hook t))).join ++
  (p.traces.map (fun t => t.hooks.map (hookShortcut t))).join ++
  [popScope]

theorem emitConstraints_false_seq :
    ∀ (l : List String) (c c2 : WCore) (out : List String),
      emitConstraints false l c = (.ok () c2, out) →
      SeqOut (l.map (fun s => line [s])) c c2 out := by
  intro l
  induction l with
  | nil =>
      intro c c2 out h
      simp only [emitConstraints, WM.pure, Prod.mk.injEq] at h
      obtain ⟨h1, h2⟩ := h
      subst h2
      injection h1 with h1a h1b
      subst h1b
      exact seqOut_nil c
  | cons s rest ih =>
      intro c c2 out h
      simp only [emitConstraints, bind_eq] at h
      rw [if_neg (by simp : ¬((false : Bool) = true)), bind_pure_run] at h
      obtain ⟨c1, o1, o2, hline, hrest, hout⟩ := bindU_ok_split h
      subst hout
      exact seqOut_cons hline (ih c1 c2 o2 hrest)

theorem emitHooksOf_seq (tr : Trace) :
    ∀ (hs : List Hook) (c c2 : WCore) (out : List String),
      emitHooksOf tr hs c = (.ok () c2, out) →
      SeqOut (hs.map (hook tr)) c c2 out := by
  intro hs
  induction hs with
  | nil =>
      intro c c2 out h
      simp only [emitHooksOf, WM.pure, Prod.mk.injEq] at h
      obtain ⟨h1, h2⟩ := h
      subst h2
      injection h1 with h1a h1b
      subst h1b
      exact seqOut_nil c
  | cons hk hrest ih =>
      intro c c2 out h
      simp only [emitHooksOf, bind_eq] at h
      obtain ⟨c1, o1, o2, h1, h2, hout⟩ := bindU_ok_split h
      subst hout
      exact seqOut_cons h1 (ih c1 c2 o2 h2)

theorem emitShortcutsOf_seq (tr : Trace) :
    ∀ (hs : List Hook) (c c2 : WCore) (out : List String),
      emitShortcutsOf tr hs c = (.ok () c2, out) →
      SeqOut (hs.map (hookShortcut tr)) c c2 out := by
  intro hs
  induction hs with
  | nil =>
      intro c c2 out h
      simp only [emitShortcutsOf, WM.pure, Prod.mk.injEq] at h
      obtain ⟨h1, h2⟩ := h
      subst h2
      injection h1 with h1a h1b
      subst h1b
      exact seqOut_nil c
  | cons hk hrest ih =>
      intro c c2 out h
      simp only [emitShortcutsOf, bind_eq] at h
      obtain ⟨c1, o1, o2, h1, h2, hout⟩ := bindU_ok_split h
      subst hout
      exact seqOut_cons h1 (ih c1 c2 o2 h2)

theorem traceBody_seq (tr : Trace) (c c2 : WCore) (out : List String)
    (h : traceBody tr c = (.ok () c2, out)) :
    SeqOut ([options tr, compose tr] ++ (if tr.nested then [isZero tr] else []) ++
      tr.hooks.map (hook tr)) c c2 out := by
  simp only [traceBody, bind_eq] at h
  obtain ⟨ca, oa, orest1, hopt, hcont1, hout1⟩ := bindU_ok_split h
  subst hout1
  obtain ⟨cb, ob, orest2, hcomp, hcont2, hout2⟩ := bindU_ok_split hcont1
  subst hout2
  cases ht : tr.nested with
  | true =>
      rw [ht, if_pos rfl] at hcont2
      obtain ⟨cc, oc, orest3, hiz, hcont3, hout3⟩ := bindU_ok_split hcont2
      subst hout3
      simp only [ht, if_pos]
      refine seqOut_cons hopt ?_
      refine seqOut_cons hcomp ?_
      exact seqOut_cons hiz (emitHooksOf_seq tr tr.hooks cc c2 orest3 hcont3)
  | false =>
      rw [ht, if_neg (by simp), bind_pure_run] at hcont2
      rw [show ((if false = true then [isZero tr] else []) : List (WM Unit)) = [] from rfl]
      simp only [List.append_nil, List.nil_append]
      refine seqOut_cons hopt (seqOut_cons hcomp ?_)
      exact emitHooksOf_seq tr tr.hooks cb c2 orest2 hcont2

theorem emitTraceBodies_seq :
    ∀ (ts : List Trace) (c c2 : WCore) (out : List String),
      emitTraceBodies ts c = (.ok () c2, out) →
      SeqOut ((ts.map (fun t =>
        [options t, compose t] ++ (if t.nested then [isZero t] else []) ++
          t.hooks.map (hook t))).join) c c2 out := by
  intro ts
  induction ts with
  | nil =>
      intro c c2 out h
      simp only [emitTraceBodies, WM.pure, Prod.mk.injEq] at h
      obtain ⟨h1, h2⟩ := h
      subst h2
      injection h1 with h1a h1b
      subst h1b
      exact seqOut_nil c
  | cons t ts ih =>
      intro c c2 out h
      simp only [emitTraceBodies, bind_eq] at h
      obtain ⟨c1, o1, o2, h1, h2, hout⟩ := bindU_ok_split h
      subst hout
      simp only [List.map_cons, List.join]
      exact seqOut_append (traceBody_seq t c c1 o1 h1) (ih c1 c2 o2 h2)

theorem emitShortcutsAll_seq :
    ∀ (ts : List Trace) (c c2 : WCore) (out : List String),
      emitShortcutsAll ts c = (.ok () c2, out) →
      SeqOut ((ts.map (fun t => t.hooks.map (hookShortcut t))).join) c c2 out := by
  intro ts
  induction ts with
  | nil =>
      intro c c2 out h
      simp only [emitShortcutsAll, WM.pure, Prod.mk.injEq] at h
      obtain ⟨h1, h2⟩ := h
      subst h2
      injection h1 with h1a h1b
      subst h1b
      exact seqOut_nil c
  | cons t ts ih =>
      intro c c2 out h
      simp only [emitShortcutsAll, bind_eq] at h
      obtain ⟨c1, o1, o2, h1, h2, hout⟩ := bindU_ok_split h
      subst hout
      simp only [List.map_cons, List.join]
      exact seqOut_append (emitShortcutsOf_seq t t.hooks c c1 o1 h1) (ih c1 c2 o2 h2)

theorem emitConstraints_true_seq (l : List String) (c c2 : WCore) (out : List String)
    (h : emitConstraints true l c = (.ok () c2, out)) :
    SeqOut (constraintSegs l) c c2 out := by
  cases l with
  | nil =>
      simp only [emitConstraints, WM.pure, Prod.mk.injEq] at h
      obtain ⟨h1, h2⟩ := h
      subst h2
      injection h1 with h1a h1b
      subst h1b
      exact seqOut_nil c
  | cons s rest =>
      simp only [emitConstraints, bind_eq] at h
      first
        | rw [if_pos trivial] at h
        | rw [if_pos rfl] at h
      obtain ⟨c1, o1, orest1, hblank, hcont1, hout1⟩ := bindU_ok_split h
      subst hout1
      obtain ⟨cb, ob, orest2, hline1, hcont2, hout2⟩ := bindU_ok_split hcont1
      subst hout2
      simp only [constraintSegs, List.cons_append, List.nil_append]
      exact seqOut_cons hblank
        (seqOut_cons hline1 (emitConstraints_false_seq rest cb c2 orest2 hcont2))

theorem writeBody_seq (p : Package) (c c2 : WCore) (out : List String)
    (h : writeBody p c = (.ok () c2, out)) :
    SeqOut ((p.traces.map (fun t =>
      [options t, compose t] ++ (if t.nested then [isZero t] else []) ++
        t.hooks.map (hook t))).join ++
      (p.traces.map (fun t => t.hooks.map (hookShortcut t))).join) c c2 out := by
  simp only [writeBody, bind_eq] at h
  obtain ⟨c1, o1, o2, h1, h2, hout⟩ := bindU_ok_split h
  subst hout
  exact seqOut_append (emitTraceBodies_seq p.traces c c1 o1 h1)
    (emitShortcutsAll_seq p.traces c1 c2 o2 h2)

theorem seqOut_congr {segs segs2 : List (WM Unit)} {c c2 : WCore}
    {out out2 : List String} (h : SeqOut segs c c2 out) (hs : segs = segs2)
    (ho : out = out2) : SeqOut segs2 c c2 out2 := by
  subst hs
  subst ho
  exact h

/-- Claim C6: a successful run of `Write` emits exactly, in order, the
generated-file marker, the preserved build constraints, the package clause,
the import block, and then inside the single outermost scope, per trace in
model order, the options type with its setter, `Compose`, `isZero` exactly
when the trace is nested, and one hook forwarder per hook, followed by all
shortcut functions across all traces in trace-then-hook order: the output
splits into consecutive segments produced by these emitters run
sequentially. -/
theorem c6_theorem (σ : SortImpl) (p : Package)
    (env : Option (List (String × Bool))) (c2 : WCore) (out : List String)
    (h : writeProg σ p (initCore p env) = (.ok () c2, out)) :
    SeqOut (writeSegs (sortedImportDeps σ) p) (initCore p env) c2 out := by
  rw [writeProg] at h
  revert h
  generalize initCore p env = c
  intro h
  simp only [writeProgAux, bind_eq] at h
  obtain ⟨c1, o1, r1, hmark, hk1, ho1⟩ := bindU_ok_split h
  subst ho1
  obtain ⟨cA, o2, r2, hconstr, hk2, ho2⟩ := bindU_ok_split hk1
  subst ho2
  obtain ⟨cB, o3, r3, hl1, hk3, ho3⟩ := bindU_ok_split hk2
  subst ho3
  obtain ⟨cC, o4, r4, hpkg, hk4, ho4⟩ := bindU_ok_split hk3
  subst ho4
  obtain ⟨cD, o5, r5, hl2, hk5, ho5⟩ := bindU_ok_split hk4
  subst ho5
  obtain ⟨cE, o6, r6, himp, hk6, ho6⟩ := bindU_ok_split hk5
  subst ho6
  simp only [newScope, bind_eq] at hk6
  obtain ⟨cF, o7, r7, hpush, hk7, ho7⟩ := bindU_ok_split hk6
  subst ho7
  obtain ⟨cG, o8, r8, hbody, hk8, ho8⟩ := bindU_ok_split hk7
  subst ho8
  obtain ⟨cH, o9, r9, hpop, hk9, ho9⟩ := bindU_ok_split hk8
  subst ho9
  simp only [WM.pure, Prod.mk.injEq] at hk9
  obtain ⟨h9a, h9b⟩ := hk9
  injection h9a with h9c h9d
  subst h9d
  subst h9b
  have t0 : SeqOut [popScope] cG cH (o9 ++ []) :=
    ⟨cH, o9, [], hpop, seqOut_nil cH, rfl⟩
  have t1 := seqOut_append (writeBody_seq p cF cG o8 hbody) t0
  have t2 := seqOut_cons hpush t1
  have t3 := seqOut_cons himp t2
  have t4 := seqOut_cons hl2 t3
  have t5 := seqOut_cons hpkg t4
  have t6 := seqOut_cons hl1 t5
  have t7 := seqOut_append
    (emitConstraints_true_seq p.buildConstraints c1 cA o2 hconstr) t6
  have t8 := seqOut_cons hmark t7
  exact seqOut_congr t8 (by simp [writeSegs, List.append_assoc])
    (by simp [List.append_assoc])

/-- A package with a build constraint and one nested trace, small enough
for the elaborator to run `writeProg` on it by plain reduction. -/
def c6tiny : Package := ⟨"a/b", "b", [], ["//go:build linux"], [⟨"T", true, []⟩]⟩

/-- The final writer state of the `c6pkg` run. -/
def c6end : WCore :=
  { atEOL := true, depth := 0, scopes := [], pkgPath := "a/b", pkgName := "b",
    globals := [], std := none, goroot := none }

set_option maxRecDepth 200000 in
set_option maxHeartbeats 8000000 in
unseal dedupGo in
/-- Claim C6 witness: `c6_theorem` at a concrete package. -/
theorem c6_witness :
    SeqOut (writeSegs (sortedImportDeps goSortSlice) c6tiny) (initCore c6tiny none)
      c6end (writeProg goSortSlice c6tiny (initCore c6tiny none)).2 :=
  c6_theorem goSortSlice c6tiny none c6end _ (by rfl)

end Gtrace
